import Mathlib

/-!
# Tremor / dyskinesia detector: model and properties

A shallow embedding of the detection pipeline of `src/main.cpp` (the wired pipeline:
`sampleHandler`, the sampling loop of `main`, `runDetection`) and of the bin-range
computation of the stand-alone module `src/signal.cpp` (`signal_init`, `process_window`).

Conventions.

* In `runDetection` single-precision values are modelled exactly, as elements of an arbitrary
  linearly ordered field `α` (so every statement holds for real-valued magnitudes and can be
  evaluated on `ℚ`). `magOut` is a function from bin index to magnitude.
* The stages in front of the magnitude buffer (the Hann loop of lines 80-84, the FFT and the
  magnitude of each bin) are modelled over `ℝ`.
* In `signal.cpp` the single-precision operations of lines 24-28 are modelled with `roundF32`,
  rounding to the nearest binary32 value, ties to even.
-/

namespace TremorDetector

/-! ## Constants of `main.cpp` -/

/-- `static constexpr int FFT_SIZE = 256;` -/
def FFT_SIZE : Nat := 256

/-- `static constexpr float SAMPLE_RATE_HZ = 104.0f;` -/
def SAMPLE_RATE_HZ {α : Type} [LinearOrderedField α] : α := 104

/-! ## Outputs -/

/-- Which branch of the decision of `runDetection` was taken. -/
inductive Classification where
  | none
  | tremor
  | dyskinesia
deriving DecidableEq, Repr

/-- The three `DigitalOut` signals `ledTremor`, `ledDysk`, `ledNone` (values 0 or 1). -/
structure Leds where
  ledTremor : Nat
  ledDysk : Nat
  ledNone : Nat
deriving DecidableEq, Repr

/-- The arguments of the one `printf` executed by `runDetection`:
`tremor tremFreq maxTrem`, `dyskinesia dyskFreq maxDysk` or `none maxTrem maxDysk`. -/
inductive Report (α : Type) where
  | tremor (freq mag : α)
  | dyskinesia (freq mag : α)
  | none (maxTrem maxDysk : α)
deriving DecidableEq, Repr

/-- The classification a report line stands for. -/
def Report.classification {α : Type} : Report α → Classification
  | .tremor _ _ => .tremor
  | .dyskinesia _ _ => .dyskinesia
  | .none _ _ => .none

/-! ## Library routines used by `runDetection` -/

/-- Modelled from the spec: the CMSIS-DSP routine `arm_max_f32` is called but not defined in the
sources. It returns the maximum element of `pSrc[0 .. blockSize-1]` and the index that attained
it; the scan starts from element 0 and replaces the running maximum only on a strict increase,
so the index is that of the first maximum. -/
def arm_max_f32 {α : Type} [LinearOrderedField α] (pSrc : Nat → α) (blockSize : Nat) : α × Nat :=
  (List.range (blockSize - 1)).foldl
    (fun acc j => if acc.1 < pSrc (j + 1) then (pSrc (j + 1), j + 1) else acc) (pSrc 0, 0)

/-- Modelled from the spec: the CMSIS-DSP routine `arm_mean_f32` is called but not defined in
the sources. It returns the arithmetic mean of `pSrc[0 .. blockSize-1]`. -/
def arm_mean_f32 {α : Type} [LinearOrderedField α] (pSrc : Nat → α) (blockSize : Nat) : α :=
  ((List.range blockSize).map pSrc).sum / (blockSize : α)

/-! ## `runDetection` (main.cpp lines 90-128) -/

/-- `uint32_t t0 = uint32_t(3.0f * FFT_SIZE / SAMPLE_RATE_HZ);` (conversion truncates). -/
def t0 : Nat := ⌊(3 : ℚ) * (FFT_SIZE : ℚ) / (SAMPLE_RATE_HZ : ℚ)⌋₊

/-- `uint32_t t1 = uint32_t(5.0f * FFT_SIZE / SAMPLE_RATE_HZ);` -/
def t1 : Nat := ⌊(5 : ℚ) * (FFT_SIZE : ℚ) / (SAMPLE_RATE_HZ : ℚ)⌋₊

/-- `uint32_t d0 = uint32_t(5.0f * FFT_SIZE / SAMPLE_RATE_HZ);` -/
def d0 : Nat := ⌊(5 : ℚ) * (FFT_SIZE : ℚ) / (SAMPLE_RATE_HZ : ℚ)⌋₊

/-- `uint32_t d1 = uint32_t(7.0f * FFT_SIZE / SAMPLE_RATE_HZ);` -/
def d1 : Nat := ⌊(7 : ℚ) * (FFT_SIZE : ℚ) / (SAMPLE_RATE_HZ : ℚ)⌋₊

/-- Line 91: `magOut[0] *= 0.1f;` -/
def dcAttenuate {α : Type} [LinearOrderedField α] (magOut : Nat → α) : Nat → α :=
  Function.update magOut 0 (magOut 0 * (1 / 10))

/-- Line 98: `arm_max_f32(magOut + t0, t1 - t0 + 1, &maxTrem, &idxT);`
The result is the pair `(maxTrem, idxT)`. -/
def tremPeak {α : Type} [LinearOrderedField α] (magOut : Nat → α) : α × Nat :=
  arm_max_f32 (fun i => magOut (t0 + i)) (t1 - t0 + 1)

/-- Line 105: `arm_max_f32(magOut + d0, d1 - d0 + 1, &maxDysk, &idxD);`
The result is the pair `(maxDysk, idxD)`. -/
def dyskPeak {α : Type} [LinearOrderedField α] (magOut : Nat → α) : α × Nat :=
  arm_max_f32 (fun i => magOut (d0 + i)) (d1 - d0 + 1)

/-- Line 108: `float tremFreq = (t0 + idxT) * SAMPLE_RATE_HZ / FFT_SIZE;` -/
def tremFreq {α : Type} [LinearOrderedField α] (magOut : Nat → α) : α :=
  ((t0 + (tremPeak magOut).2 : Nat) : α) * SAMPLE_RATE_HZ / (FFT_SIZE : α)

/-- Line 109: `float dyskFreq = (d0 + idxD) * SAMPLE_RATE_HZ / FFT_SIZE;` -/
def dyskFreq {α : Type} [LinearOrderedField α] (magOut : Nat → α) : α :=
  ((d0 + (dyskPeak magOut).2 : Nat) : α) * SAMPLE_RATE_HZ / (FFT_SIZE : α)

/-- Line 113: `arm_mean_f32(magOut + 1, 10, &baseline);` -/
def baseline {α : Type} [LinearOrderedField α] (magOut : Nat → α) : α :=
  arm_mean_f32 (fun i => magOut (1 + i)) 10

/-- Lines 114-128, as a function of the values computed before them: the threshold, the reset of
the three signals, and the three-way decision with its signal and its report line.
The previous state of the signals is an argument because line 117 overwrites it. -/
def decision {α : Type} [LinearOrderedField α] (_leds : Leds)
    (tremFreq dyskFreq maxTrem maxDysk baseline : α) : Leds × Report α :=
  let threshold := baseline * 10
  let leds : Leds := { ledTremor := 0, ledDysk := 0, ledNone := 0 }
  if maxTrem > maxDysk ∧ maxTrem > threshold then
    ({ leds with ledTremor := 1 }, Report.tremor tremFreq maxTrem)
  else if maxDysk > maxTrem ∧ maxDysk > threshold then
    ({ leds with ledDysk := 1 }, Report.dyskinesia dyskFreq maxDysk)
  else
    ({ leds with ledNone := 1 }, Report.none maxTrem maxDysk)

/-- Lines 93-128: band peaks, frequencies, baseline and decision on a magnitude buffer. -/
def detect {α : Type} [LinearOrderedField α] (leds : Leds) (magOut : Nat → α) : Leds × Report α :=
  decision leds (tremFreq magOut) (dyskFreq magOut) (tremPeak magOut).1 (dyskPeak magOut).1
    (baseline magOut)

/-- `runDetection` from line 90 on: DC attenuation of the magnitude buffer, then lines 93-128. -/
def runDetection {α : Type} [LinearOrderedField α] (leds : Leds) (magOut : Nat → α) :
    Leds × Report α :=
  detect leds (dcAttenuate magOut)

/-! ## The front end of `runDetection` (main.cpp lines 80-88), over the reals -/

/-- Lines 80-82: `float windowCoef = 0.5f * (1.0f - cosf(2.0f * PI * i / (FFT_SIZE - 1)));` -/
noncomputable def windowCoef (i : Nat) : ℝ :=
  0.5 * (1 - Real.cos (2 * Real.pi * (i : ℝ) / ((FFT_SIZE - 1 : ℕ) : ℝ)))

/-- Line 83, for every `i`: `inputBuf[i] *= windowCoef;` -/
noncomputable def applyWindow (inputBuf : Nat → ℝ) : Nat → ℝ :=
  fun i => inputBuf i * windowCoef i

/-- Modelled from the spec: the CMSIS-DSP routine `arm_rfft_fast_f32` (line 87) is called but not
defined in the sources. Coefficient `k` of the real-input FFT of size `FFT_SIZE` is the discrete
Fourier transform `sum over n < FFT_SIZE of x[n] * exp(-2 pi i k n / FFT_SIZE)`. -/
noncomputable def dft (x : Nat → ℝ) (k : Nat) : ℂ :=
  ∑ n in Finset.range FFT_SIZE,
    (x n : ℂ) *
      Complex.exp (((-(2 * Real.pi * (k : ℝ) * (n : ℝ) / (FFT_SIZE : ℝ)) : ℝ) : ℂ) * Complex.I)

/-- Modelled from the spec: the CMSIS-DSP routine `arm_cmplx_mag_f32` (line 88) is called but not
defined in the sources. Bin `k` of the magnitude spectrum is the modulus of coefficient `k`.
(The library packs the Nyquist term into coefficient 0; bin 0 is not read after line 91.) -/
noncomputable def magnitudeSpectrum (x : Nat → ℝ) (k : Nat) : ℝ :=
  Complex.abs (dft x k)

/-- All of `runDetection` (lines 78-128) on an input buffer: window, FFT, magnitudes, then the
stages of `runDetection` above. -/
noncomputable def runDetectionOn (leds : Leds) (inputBuf : Nat → ℝ) : Leds × Report ℝ :=
  runDetection leds (magnitudeSpectrum (applyWindow inputBuf))

/-- The sum of the first 256 powers of the unit-circle point at angle `ψ`. -/
noncomputable def unitSum (ψ : ℝ) : ℂ :=
  ∑ n in Finset.range 256, Complex.exp (((n : ℝ) * ψ : ℝ) * Complex.I)

/-- The angular step of the Hann window, `2 pi / (FFT_SIZE - 1)`. -/
noncomputable def windowStep : ℝ := 2 * Real.pi / 255

/-- The angular step of bin `k`, `2 pi k / FFT_SIZE`. -/
noncomputable def binStep (k : Nat) : ℝ := 2 * Real.pi * (k : ℝ) / 256

/-! ## Acquisition: `sampleHandler` and the sampling loop of `main` (lines 72-74, 191-211)

One step of the main context is one iteration of `while (idx < FFT_SIZE)`: the guard, then the
body of lines 202-208. The ticker callback may run between any two iterations. A callback that
runs inside an iteration acts like one just before it when it comes before `sampleNow = false`,
and like one just after it otherwise; only the main context writes `idx` and `inputBuf`. -/

/-- The variables of the acquisition cycle: the flag `sampleNow`, the fill index `idx`
(a `uint32_t`), the buffer `inputBuf`, and whether control is still inside the sampling loop.
`stores` is a history variable, not program state: the index and value of every store into
`inputBuf`, oldest first. The variable `ready` is written once and never read; it is left out. -/
structure Acq where
  sampleNow : Bool
  idx : Nat
  inputBuf : List ℚ
  inLoop : Bool
  stores : List (Nat × Int)
deriving DecidableEq, Repr

/-- Lines 72-74: `void sampleHandler() { sampleNow = true; }` -/
def sampleHandler (s : Acq) : Acq :=
  { s with sampleNow := true }

/-- Lines 202-207, the body of the sampling loop; `raw` is the value returned by
`read_16bit(OUTX_L_XL, OUTX_H_XL)` if the read is made:
`if (sampleNow) { sampleNow = false; inputBuf[idx++] = float32_t(raw); }` -/
def loopBody (raw : Int) (s : Acq) : Acq :=
  if s.sampleNow then
    { s with
      sampleNow := false
      inputBuf := s.inputBuf.set s.idx (raw : ℚ)
      idx := (s.idx + 1) % 2 ^ 32
      stores := s.stores ++ [(s.idx, raw)] }
  else s

/-- One poll of the main loop: the guard `idx < FFT_SIZE` of line 201, then the body when it
holds; when it fails the loop is left (line 211). After the loop nothing is polled. -/
def poll (raw : Int) (s : Acq) : Acq :=
  if s.inLoop then
    if s.idx < FFT_SIZE then loopBody raw s else { s with inLoop := false }
  else s

/-- What can happen during one acquisition cycle: the ticker fires, or the main loop polls
(and, if it reads the sensor, obtains `raw`). -/
inductive Event where
  | fire
  | poll (raw : Int)
deriving DecidableEq, Repr

/-- The effect of one event. -/
def step (s : Acq) : Event → Acq
  | .fire => sampleHandler s
  | .poll raw => poll raw s

/-- The effect of a sequence of events, oldest first. -/
def run (s : Acq) (tr : List Event) : Acq :=
  tr.foldl step s

/-- Lines 193-199: the state in which the sampling loop is entered. `idx` is reset; `sampleNow`
is not, and `inputBuf` still holds the previous window. -/
def startCycle (sampleNow : Bool) (inputBuf : List ℚ) : Acq :=
  { sampleNow := sampleNow, idx := 0, inputBuf := inputBuf, inLoop := true, stores := [] }

/-- The events of a cycle in which every firing is polled before the next: `n` times
a firing and a poll that reads `raw i`. -/
def regularTrace (raw : Nat → Int) : Nat → List Event
  | 0 => []
  | n + 1 => regularTrace raw n ++ [Event.fire, Event.poll (raw n)]

/-- The invariant of the acquisition cycle: `idx` is within `[0, FFT_SIZE]`, the buffer keeps its
size, the stores made so far went to positions `0, 1, .., idx-1` in this order, the first `idx`
entries of the buffer are the stored values, and the loop has been left only with
`idx = FFT_SIZE`. -/
def AcqInv (s : Acq) : Prop :=
  s.idx ≤ FFT_SIZE ∧
  s.inputBuf.length = FFT_SIZE ∧
  s.stores.map Prod.fst = List.range s.idx ∧
  s.inputBuf.take s.idx = s.stores.map (fun p => (p.2 : ℚ)) ∧
  (s.inLoop = false → s.idx = FFT_SIZE)

/-! ## Single precision -/

/-- Rounding of a rational to the nearest integer, ties to the even one. -/
def rne (x : ℚ) : ℤ :=
  if x - ⌊x⌋ < 1 / 2 then ⌊x⌋
  else if 1 / 2 < x - ⌊x⌋ then ⌊x⌋ + 1
  else if ⌊x⌋ % 2 = 0 then ⌊x⌋ else ⌊x⌋ + 1

/-- The exponent of the unit in the last place of binary32 at `q`: 24 significant bits, smallest
normal exponent -126 (below it the spacing stays `2 ^ (-149)`). -/
def ulpExp (q : ℚ) : ℤ := max (Int.log 2 q) (-126) - 23

/-- Rounding of a non-negative rational to the binary32 grid at its magnitude. -/
def roundMag (q : ℚ) : ℚ := (rne (q / 2 ^ ulpExp q) : ℚ) * 2 ^ ulpExp q

/-- The single-precision value of a rational: round to nearest, ties to even. Overflow to
infinity (above `2 ^ 128`) is not modelled. -/
def roundF32 (q : ℚ) : ℚ := if q < 0 then -roundMag (-q) else roundMag q

/-! ## `signal.cpp`: `signal_init` and the bin ranges of `process_window` -/

/-- The file-scope variables `N` (a `uint32_t`, so below `2 ^ 32`) and `fs` (a `float`) of
`signal.cpp`. -/
structure SignalState where
  N : Nat
  fs : ℚ
deriving DecidableEq, Repr

/-- Lines 9-13: `N = fft_size; fs = sampling_freq;` (no argument is rejected; the status of
`arm_rfft_fast_init_f32` is ignored). -/
def signal_init (fft_size : Nat) (sampling_freq : ℚ) : SignalState :=
  { N := fft_size, fs := sampling_freq }

/-- Line 24: `float bin_width = fs / N;` (`N` is converted to `float`, the quotient is a
`float`). -/
def bin_width (s : SignalState) : ℚ := roundF32 (s.fs / roundF32 (s.N : ℚ))

/-- Line 25: `uint32_t t_lo = (uint32_t)ceil(3.0f / bin_width);` -/
def t_lo (s : SignalState) : Nat := ⌈roundF32 ((3 : ℚ) / bin_width s)⌉₊

/-- Line 26: `uint32_t t_hi = (uint32_t)floor(5.0f / bin_width);` -/
def t_hi (s : SignalState) : Nat := ⌊roundF32 ((5 : ℚ) / bin_width s)⌋₊

/-- Line 27: `uint32_t d_lo = (uint32_t)ceil(5.0f / bin_width);` -/
def d_lo (s : SignalState) : Nat := ⌈roundF32 ((5 : ℚ) / bin_width s)⌉₊

/-- Line 28: `uint32_t d_hi = (uint32_t)floor(7.0f / bin_width);` -/
def d_hi (s : SignalState) : Nat := ⌊roundF32 ((7 : ℚ) / bin_width s)⌋₊

/-- Lines 30-35 of `process_window`: the two band sums over `mags[t_lo..t_hi]` and
`mags[d_lo..d_hi]` (empty when `lo > hi`). -/
def process_window {α : Type} [LinearOrderedField α] (s : SignalState) (mags : Nat → α) : α × α :=
  (((List.range (t_hi s + 1 - t_lo s)).map (fun i => mags (t_lo s + i))).sum,
   ((List.range (d_hi s + 1 - d_lo s)).map (fun i => mags (d_lo s + i))).sum)

/-- The property of a bin range `[lo, hi]` required by the data model: `0 ≤ lo ≤ hi ≤ N/2`. -/
def rangeOk (N lo hi : Nat) : Prop := 0 ≤ lo ∧ lo ≤ hi ∧ hi ≤ N / 2

/-! ## Sample data -/

/-- A spectrum with a single line at bin 11. -/
def spike11 : Nat → ℚ := fun k => if k = 11 then 1 else 0

/-- A spectrum with a single line at bin 12 (4.875 Hz). -/
def spike12 : Nat → ℚ := fun k => if k = 12 then 1 else 0

/-- A spectrum shaped like the main lobe of a windowed 4 Hz sine: 4 Hz falls between bins 9
(3.66 Hz) and 10 (4.06 Hz), nearer to bin 10. -/
def lobe4Hz : Nat → ℚ := fun k =>
  if k = 8 then 50 else if k = 9 then 550 else if k = 10 then 970 else if k = 11 then 400
  else if k = 12 then 30 else 0

/-- The signals as `main` leaves them before the first cycle (line 188). -/
def ledsIdle : Leds := { ledTremor := 0, ledDysk := 0, ledNone := 1 }

/-! ## Basic facts -/

theorem t0_eq : t0 = 7 := by
  unfold t0 FFT_SIZE SAMPLE_RATE_HZ
  rw [Nat.floor_eq_iff (by norm_num)]; norm_num

theorem t1_eq : t1 = 12 := by
  unfold t1 FFT_SIZE SAMPLE_RATE_HZ
  rw [Nat.floor_eq_iff (by norm_num)]; norm_num

theorem d0_eq : d0 = 12 := by
  unfold d0 FFT_SIZE SAMPLE_RATE_HZ
  rw [Nat.floor_eq_iff (by norm_num)]; norm_num

theorem d1_eq : d1 = 17 := by
  unfold d1 FFT_SIZE SAMPLE_RATE_HZ
  rw [Nat.floor_eq_iff (by norm_num)]; norm_num


/-! ## The library routines -/

/-- One more element: `arm_max_f32` on `n + 2` elements compares the result on the first
`n + 1` with element `n + 1`. -/
theorem arm_max_f32_succ {α : Type} [LinearOrderedField α] (pSrc : Nat → α) (n : Nat) :
    arm_max_f32 pSrc (n + 2) =
      if (arm_max_f32 pSrc (n + 1)).1 < pSrc (n + 1) then (pSrc (n + 1), n + 1)
      else arm_max_f32 pSrc (n + 1) := by
  simp [arm_max_f32, List.range_succ, List.foldl_append]

/-- The scan of `arm_max_f32` over `pSrc[0..n]` yields the maximum and the first index
attaining it. -/
theorem arm_max_scan {α : Type} [LinearOrderedField α] (pSrc : Nat → α) (n : Nat) :
    (arm_max_f32 pSrc (n + 1)).2 ≤ n ∧
    pSrc (arm_max_f32 pSrc (n + 1)).2 = (arm_max_f32 pSrc (n + 1)).1 ∧
    (∀ j, j ≤ n → pSrc j ≤ (arm_max_f32 pSrc (n + 1)).1) ∧
    (∀ j, j < (arm_max_f32 pSrc (n + 1)).2 → pSrc j < (arm_max_f32 pSrc (n + 1)).1) := by
  induction n with
  | zero => simp [arm_max_f32]
  | succ n ih =>
    obtain ⟨h1, h2, h3, h4⟩ := ih
    rw [arm_max_f32_succ]
    split_ifs with hlt
    · refine ⟨le_refl _, rfl, ?_, ?_⟩
      · intro j hj
        rcases Nat.lt_or_ge j (n + 1) with hj1 | hj1
        · exact le_trans (h3 j (by omega)) (le_of_lt hlt)
        · have : j = n + 1 := by omega
          subst this; exact le_refl _
      · intro j hj
        exact lt_of_le_of_lt (h3 j (by omega)) hlt
    · refine ⟨by omega, h2, ?_, h4⟩
      intro j hj
      rcases Nat.lt_or_ge j (n + 1) with hj1 | hj1
      · exact h3 j (by omega)
      · have : j = n + 1 := by omega
        subst this; exact not_lt.mp hlt

/-- The result of `arm_max_f32` on a non-empty block: the index is inside the block, the value is
the element at that index, no element of the block is larger, and every earlier element is
strictly smaller. -/
theorem arm_max_f32_spec {α : Type} [LinearOrderedField α] (pSrc : Nat → α) (blockSize : Nat)
    (hb : 0 < blockSize) :
    (arm_max_f32 pSrc blockSize).2 < blockSize ∧
    pSrc (arm_max_f32 pSrc blockSize).2 = (arm_max_f32 pSrc blockSize).1 ∧
    (∀ j, j < blockSize → pSrc j ≤ (arm_max_f32 pSrc blockSize).1) ∧
    (∀ j, j < (arm_max_f32 pSrc blockSize).2 → pSrc j < (arm_max_f32 pSrc blockSize).1) := by
  obtain ⟨n, rfl⟩ : ∃ n, blockSize = n + 1 := ⟨blockSize - 1, by omega⟩
  obtain ⟨h1, h2, h3, h4⟩ := arm_max_scan pSrc n
  exact ⟨by omega, h2, fun j hj => h3 j (by omega), h4⟩

/-- The threshold `baseline * 10` is the sum of bins 1..10. -/
theorem threshold_eq_sum {α : Type} [LinearOrderedField α] (m : Nat → α) :
    baseline m * 10 = m 1 + m 2 + m 3 + m 4 + m 5 + m 6 + m 7 + m 8 + m 9 + m 10 := by
  simp only [baseline, arm_mean_f32, List.range_succ, List.range_zero, List.map_append,
    List.map_cons, List.map_nil, List.sum_append, List.sum_cons, List.sum_nil, List.nil_append]
  norm_num

/-- The tremor peak: index within 0..5, value at bin `7 + idx`, an upper bound of bins 7..12,
strictly above the bins before `7 + idx`. -/
theorem tremPeak_spec {α : Type} [LinearOrderedField α] (m : Nat → α) :
    (tremPeak m).2 < 6 ∧ m (7 + (tremPeak m).2) = (tremPeak m).1 ∧
    (∀ j, j < 6 → m (7 + j) ≤ (tremPeak m).1) ∧
    (∀ j, j < (tremPeak m).2 → m (7 + j) < (tremPeak m).1) := by
  have h := arm_max_f32_spec (fun i => m (t0 + i)) (t1 - t0 + 1) (by omega)
  simp only [t0_eq, t1_eq] at h
  simpa [tremPeak, t0_eq, t1_eq] using h

/-- The dyskinesia peak: index within 0..5, value at bin `12 + idx`, an upper bound of bins
12..17, strictly above the bins before `12 + idx`. -/
theorem dyskPeak_spec {α : Type} [LinearOrderedField α] (m : Nat → α) :
    (dyskPeak m).2 < 6 ∧ m (12 + (dyskPeak m).2) = (dyskPeak m).1 ∧
    (∀ j, j < 6 → m (12 + j) ≤ (dyskPeak m).1) ∧
    (∀ j, j < (dyskPeak m).2 → m (12 + j) < (dyskPeak m).1) := by
  have h := arm_max_f32_spec (fun i => m (d0 + i)) (d1 - d0 + 1) (by omega)
  simp only [d0_eq, d1_eq] at h
  simpa [dyskPeak, d0_eq, d1_eq] using h


/-! ## The decision stage -/

/-- The branch taken by `decision`, in terms of its three comparisons. -/
theorem decision_classification {α : Type} [LinearOrderedField α] (leds : Leds)
    (tf df T D b : α) :
    ((decision leds tf df T D b).2.classification = Classification.tremor ↔
        T > D ∧ T > b * 10) ∧
    ((decision leds tf df T D b).2.classification = Classification.dyskinesia ↔
        D > T ∧ D > b * 10) ∧
    ((decision leds tf df T D b).2.classification = Classification.none ↔
        ¬ (T > D ∧ T > b * 10) ∧ ¬ (D > T ∧ D > b * 10)) := by
  unfold decision
  by_cases h1 : T > D ∧ T > b * 10
  · have h2 : ¬ (D > T ∧ D > b * 10) := fun h => absurd h.1 (not_lt.mpr (le_of_lt h1.1))
    simp [h1, h2, Report.classification]
  · by_cases h2 : D > T ∧ D > b * 10
    · simp [h1, h2, Report.classification]
    · simp [h1, h2, Report.classification]

/-- The signals and the report line produced by `decision`, branch by branch. -/
theorem decision_cases {α : Type} [LinearOrderedField α] (leds : Leds) (tf df T D b : α) :
    (decision leds tf df T D b =
        ({ ledTremor := 1, ledDysk := 0, ledNone := 0 }, Report.tremor tf T)) ∨
    (decision leds tf df T D b =
        ({ ledTremor := 0, ledDysk := 1, ledNone := 0 }, Report.dyskinesia df D)) ∨
    (decision leds tf df T D b =
        ({ ledTremor := 0, ledDysk := 0, ledNone := 1 }, Report.none T D)) := by
  unfold decision
  by_cases h1 : T > D ∧ T > b * 10
  · left; simp [h1]
  · by_cases h2 : D > T ∧ D > b * 10
    · right; left; simp [h1, h2]
    · right; right; simp [h1, h2]

/-! ## Independence from the DC bin -/

/-- The band peaks and the baseline read bins 1..17 only. -/
theorem peaks_congr {α : Type} [LinearOrderedField α] (m m' : Nat → α)
    (h : ∀ k, 1 ≤ k → k ≤ 17 → m k = m' k) :
    tremPeak m = tremPeak m' ∧ dyskPeak m = dyskPeak m' ∧ baseline m = baseline m' := by
  have e1 := h 1 (by omega) (by omega)
  have e2 := h 2 (by omega) (by omega)
  have e3 := h 3 (by omega) (by omega)
  have e4 := h 4 (by omega) (by omega)
  have e5 := h 5 (by omega) (by omega)
  have e6 := h 6 (by omega) (by omega)
  have e7 := h 7 (by omega) (by omega)
  have e8 := h 8 (by omega) (by omega)
  have e9 := h 9 (by omega) (by omega)
  have e10 := h 10 (by omega) (by omega)
  have e11 := h 11 (by omega) (by omega)
  have e12 := h 12 (by omega) (by omega)
  have e13 := h 13 (by omega) (by omega)
  have e14 := h 14 (by omega) (by omega)
  have e15 := h 15 (by omega) (by omega)
  have e16 := h 16 (by omega) (by omega)
  have e17 := h 17 (by omega) (by omega)
  refine ⟨?_, ?_, ?_⟩
  · simp only [tremPeak, arm_max_f32, t0_eq, t1_eq, List.range_succ, List.range_zero,
      List.nil_append, List.foldl_append, List.foldl_cons, List.foldl_nil, Nat.reduceAdd,
      Nat.reduceSub, List.cons_append, e7, e8, e9, e10, e11, e12]
  · simp only [dyskPeak, arm_max_f32, d0_eq, d1_eq, List.range_succ, List.range_zero,
      List.nil_append, List.foldl_append, List.foldl_cons, List.foldl_nil, Nat.reduceAdd,
      Nat.reduceSub, List.cons_append, e12, e13, e14, e15, e16, e17]
  · simp only [baseline, arm_mean_f32, List.range_succ, List.range_zero, List.nil_append,
      List.map_append, List.map_cons, List.map_nil, Nat.reduceAdd, List.cons_append,
      e1, e2, e3, e4, e5, e6, e7, e8, e9, e10]

/-- The band-peak and decision stages read bins 1..17 only. -/
theorem detect_congr {α : Type} [LinearOrderedField α] (leds : Leds) (m m' : Nat → α)
    (h : ∀ k, 1 ≤ k → k ≤ 17 → m k = m' k) : detect leds m = detect leds m' := by
  obtain ⟨hT, hD, hB⟩ := peaks_congr m m' h
  unfold detect tremFreq dyskFreq
  rw [hT, hD, hB]

/-- The DC attenuation changes bin 0 only. -/
theorem dcAttenuate_of_pos {α : Type} [LinearOrderedField α] (m : Nat → α) (k : Nat)
    (hk : 1 ≤ k) : dcAttenuate m k = m k := by
  unfold dcAttenuate
  exact Function.update_noteq (by omega) _ _

/-- `runDetection` gives what the stages after the DC attenuation give on the unattenuated
buffer. -/
theorem runDetection_eq_detect {α : Type} [LinearOrderedField α] (leds : Leds) (m : Nat → α) :
    runDetection leds m = detect leds m :=
  detect_congr leds (dcAttenuate m) m (fun k hk _ => dcAttenuate_of_pos m k hk)


/-! ## Where a tremor can be detected -/

/-- With non-negative bins 1..10, no bin of 7..10 exceeds the threshold. -/
theorem low_bins_le_threshold {α : Type} [LinearOrderedField α] (m : Nat → α)
    (hm : ∀ k, 1 ≤ k → k ≤ 10 → 0 ≤ m k) (k : Nat) (h7 : 7 ≤ k) (h10 : k ≤ 10) :
    m k ≤ baseline m * 10 := by
  rw [threshold_eq_sum]
  have p1 := hm 1 (by omega) (by omega)
  have p2 := hm 2 (by omega) (by omega)
  have p3 := hm 3 (by omega) (by omega)
  have p4 := hm 4 (by omega) (by omega)
  have p5 := hm 5 (by omega) (by omega)
  have p6 := hm 6 (by omega) (by omega)
  have p7 := hm 7 (by omega) (by omega)
  have p8 := hm 8 (by omega) (by omega)
  have p9 := hm 9 (by omega) (by omega)
  have p10 := hm 10 (by omega) (by omega)
  have hk : k = 7 ∨ k = 8 ∨ k = 9 ∨ k = 10 := by omega
  rcases hk with rfl | rfl | rfl | rfl <;> linarith

/-- Bin 12 belongs to the dyskinesia band, so it never exceeds the dyskinesia peak. -/
theorem bin12_le_dyskPeak {α : Type} [LinearOrderedField α] (m : Nat → α) :
    m 12 ≤ (dyskPeak m).1 := by
  have h := (dyskPeak_spec m).2.2.1 0 (by omega)
  simpa using h

/-- If the tremor peak beats both the dyskinesia peak and the threshold, it sits at bin 11 and
is strictly above the other five bins of the tremor band. -/
theorem tremor_peak_at_11 {α : Type} [LinearOrderedField α] (m : Nat → α)
    (hm : ∀ k, 1 ≤ k → k ≤ 10 → 0 ≤ m k)
    (h1 : (tremPeak m).1 > (dyskPeak m).1) (h2 : (tremPeak m).1 > baseline m * 10) :
    (tremPeak m).2 = 4 ∧ (tremPeak m).1 = m 11 ∧
    (∀ k, 7 ≤ k → k ≤ 12 → k ≠ 11 → m k < m 11) := by
  obtain ⟨hi, hv, _, _⟩ := tremPeak_spec m
  have l7 := low_bins_le_threshold m hm 7 (by omega) (by omega)
  have l8 := low_bins_le_threshold m hm 8 (by omega) (by omega)
  have l9 := low_bins_le_threshold m hm 9 (by omega) (by omega)
  have l10 := low_bins_le_threshold m hm 10 (by omega) (by omega)
  have l12 := bin12_le_dyskPeak m
  have hidx : (tremPeak m).2 = 4 := by
    have hc : (tremPeak m).2 = 0 ∨ (tremPeak m).2 = 1 ∨ (tremPeak m).2 = 2 ∨
        (tremPeak m).2 = 3 ∨ (tremPeak m).2 = 4 ∨ (tremPeak m).2 = 5 := by omega
    rcases hc with h | h | h | h | h | h
    · rw [h] at hv; norm_num at hv; linarith
    · rw [h] at hv; norm_num at hv; linarith
    · rw [h] at hv; norm_num at hv; linarith
    · rw [h] at hv; norm_num at hv; linarith
    · exact h
    · rw [h] at hv; norm_num at hv; linarith
  rw [hidx] at hv
  norm_num at hv
  refine ⟨hidx, hv.symm, ?_⟩
  intro k h7 h12 hne
  have hk : k = 7 ∨ k = 8 ∨ k = 9 ∨ k = 10 ∨ k = 12 := by omega
  rcases hk with rfl | rfl | rfl | rfl | rfl <;> linarith

/-! ## Claims about the detection stage -/

/-- C1: for every triple `(maxTrem, maxDysk, baseline)`, with threshold `10 * baseline`, the
decision of `runDetection` is Tremor exactly when `maxTrem > maxDysk` and `maxTrem > threshold`,
Dyskinesia exactly when `maxDysk > maxTrem` and `maxDysk > threshold`, and None in every other
case; a tie `maxTrem = maxDysk` gives None whatever the threshold. The same holds for the triple
that `runDetection` computes from any magnitude buffer. -/
theorem C1_decision_rule {α : Type} [LinearOrderedField α] (leds : Leds)
    (tf df maxTrem maxDysk b : α) :
    ((decision leds tf df maxTrem maxDysk b).2.classification = Classification.tremor ↔
        maxTrem > maxDysk ∧ maxTrem > 10 * b) ∧
    ((decision leds tf df maxTrem maxDysk b).2.classification = Classification.dyskinesia ↔
        maxDysk > maxTrem ∧ maxDysk > 10 * b) ∧
    ((decision leds tf df maxTrem maxDysk b).2.classification = Classification.none ↔
        ¬ (maxTrem > maxDysk ∧ maxTrem > 10 * b) ∧ ¬ (maxDysk > maxTrem ∧ maxDysk > 10 * b)) ∧
    (maxTrem = maxDysk →
        (decision leds tf df maxTrem maxDysk b).2.classification = Classification.none) ∧
    (∀ magOut : Nat → α,
      ((runDetection leds magOut).2.classification = Classification.tremor ↔
        (tremPeak (dcAttenuate magOut)).1 > (dyskPeak (dcAttenuate magOut)).1 ∧
        (tremPeak (dcAttenuate magOut)).1 > 10 * baseline (dcAttenuate magOut)) ∧
      ((runDetection leds magOut).2.classification = Classification.dyskinesia ↔
        (dyskPeak (dcAttenuate magOut)).1 > (tremPeak (dcAttenuate magOut)).1 ∧
        (dyskPeak (dcAttenuate magOut)).1 > 10 * baseline (dcAttenuate magOut)) ∧
      ((tremPeak (dcAttenuate magOut)).1 = (dyskPeak (dcAttenuate magOut)).1 →
        (runDetection leds magOut).2.classification = Classification.none)) := by
  have key : ∀ (tf df T D b : α),
      ((decision leds tf df T D b).2.classification = Classification.tremor ↔
          T > D ∧ T > 10 * b) ∧
      ((decision leds tf df T D b).2.classification = Classification.dyskinesia ↔
          D > T ∧ D > 10 * b) ∧
      ((decision leds tf df T D b).2.classification = Classification.none ↔
          ¬ (T > D ∧ T > 10 * b) ∧ ¬ (D > T ∧ D > 10 * b)) := by
    intro tf df T D b
    have h := decision_classification leds tf df T D b
    rw [mul_comm b 10] at h
    exact h
  have tie : ∀ (tf df T D b : α), T = D →
      (decision leds tf df T D b).2.classification = Classification.none := by
    intro tf df T D b hTD
    refine (key tf df T D b).2.2.mpr ⟨fun h => ?_, fun h => ?_⟩
    · exact absurd h.1 (by rw [hTD]; exact lt_irrefl _)
    · exact absurd h.1 (by rw [hTD]; exact lt_irrefl _)
  refine ⟨(key _ _ _ _ _).1, (key _ _ _ _ _).2.1, (key _ _ _ _ _).2.2, tie _ _ _ _ _, ?_⟩
  intro magOut
  exact ⟨(key _ _ _ _ _).1, (key _ _ _ _ _).2.1, tie _ _ _ _ _⟩

/-- C1, at a tie above the threshold: `maxTrem = maxDysk = 5`, `baseline = 1/10`. -/
theorem C1_decision_rule_witness :
    (5 : ℚ) = 5 ∧ (5 : ℚ) > 10 * (1 / 10) ∧
    (decision ledsIdle 0 0 (5 : ℚ) 5 (1 / 10)).2.classification = Classification.none :=
  ⟨rfl, by norm_num, (C1_decision_rule ledsIdle 0 0 (5 : ℚ) 5 (1 / 10)).2.2.2.1 rfl⟩

/-- C4: for every previous state of the signals and every magnitude buffer, after `runDetection`
exactly one of `ledTremor`, `ledDysk`, `ledNone` is 1 and the other two are 0, and the signal
that is 1 is the one of the classification reported. -/
theorem C4_exactly_one_signal {α : Type} [LinearOrderedField α] (leds : Leds)
    (magOut : Nat → α) :
    ((runDetection leds magOut).1 = { ledTremor := 1, ledDysk := 0, ledNone := 0 } ∧
        (runDetection leds magOut).2.classification = Classification.tremor) ∨
    ((runDetection leds magOut).1 = { ledTremor := 0, ledDysk := 1, ledNone := 0 } ∧
        (runDetection leds magOut).2.classification = Classification.dyskinesia) ∨
    ((runDetection leds magOut).1 = { ledTremor := 0, ledDysk := 0, ledNone := 1 } ∧
        (runDetection leds magOut).2.classification = Classification.none) := by
  unfold runDetection detect
  rcases decision_cases leds (tremFreq (dcAttenuate magOut)) (dyskFreq (dcAttenuate magOut))
      (tremPeak (dcAttenuate magOut)).1 (dyskPeak (dcAttenuate magOut)).1
      (baseline (dcAttenuate magOut)) with h | h | h
  · left; rw [h]; exact ⟨rfl, rfl⟩
  · right; left; rw [h]; exact ⟨rfl, rfl⟩
  · right; right; rw [h]; exact ⟨rfl, rfl⟩


/-- C9: for a magnitude buffer with non-negative entries, no bin of 7..10 exceeds the threshold
(the threshold is the sum of bins 1..10) and bin 12 never exceeds the dyskinesia peak (bin 12 is
in both bands); hence, if the classification is Tremor, the tremor peak is attained at bin 11 and
strictly exceeds every other bin of 7..12, and the reported frequency is
`11 * 104 / 256 = 143/32 = 4.46875` Hz. -/
theorem C9_tremor_only_at_bin_11 {α : Type} [LinearOrderedField α] (leds : Leds)
    (magOut : Nat → α) (hm : ∀ k, 0 ≤ magOut k)
    (hT : (detect leds magOut).2.classification = Classification.tremor) :
    (∀ k, 7 ≤ k → k ≤ 10 → magOut k ≤ baseline magOut * 10) ∧
    magOut 12 ≤ (dyskPeak magOut).1 ∧
    t0 + (tremPeak magOut).2 = 11 ∧
    (tremPeak magOut).1 = magOut 11 ∧
    (∀ k, 7 ≤ k → k ≤ 12 → k ≠ 11 → magOut k < magOut 11) ∧
    tremFreq magOut = 11 * 104 / 256 ∧
    (detect leds magOut).2 = Report.tremor (143 / 32) (magOut 11) ∧
    (runDetection leds magOut).2 = Report.tremor (143 / 32) (magOut 11) := by
  have hm' : ∀ k, 1 ≤ k → k ≤ 10 → 0 ≤ magOut k := fun k _ _ => hm k
  have hc := (decision_classification leds (tremFreq magOut) (dyskFreq magOut)
    (tremPeak magOut).1 (dyskPeak magOut).1 (baseline magOut)).1.mp hT
  obtain ⟨hidx, hval, hstrict⟩ := tremor_peak_at_11 magOut hm' hc.1 hc.2
  have hf : tremFreq magOut = 11 * 104 / 256 := by
    unfold tremFreq
    rw [hidx, t0_eq]
    norm_num [SAMPLE_RATE_HZ, FFT_SIZE]
  have hrep : (detect leds magOut).2 = Report.tremor (143 / 32) (magOut 11) := by
    have hf' : tremFreq magOut = 143 / 32 := by rw [hf]; norm_num
    unfold detect decision
    simp only [hc, and_self, if_true]
    rw [hf', hval]
  refine ⟨fun k h7 h10 => low_bins_le_threshold magOut hm' k h7 h10, bin12_le_dyskPeak magOut,
    ?_, hval, hstrict, hf, hrep, ?_⟩
  · rw [hidx, t0_eq]
  · rw [runDetection_eq_detect]; exact hrep

/-- C9, at a spectrum with a single line at bin 11. -/
theorem C9_tremor_only_at_bin_11_witness :
    (∀ k, 0 ≤ spike11 k) ∧
    (detect ledsIdle spike11).2.classification = Classification.tremor ∧
    (runDetection ledsIdle spike11).2 = Report.tremor (143 / 32) (spike11 11) :=
  have h1 : ∀ k, 0 ≤ spike11 k := by
    intro k; unfold spike11; split_ifs <;> norm_num
  have h2 : (detect ledsIdle spike11).2.classification = Classification.tremor := by
    norm_num [detect, decision, tremPeak, dyskPeak, baseline, arm_max_f32, arm_mean_f32, t0_eq,
      t1_eq, d0_eq, d1_eq, spike11, List.range_succ, Report.classification]
  ⟨h1, h2, (C9_tremor_only_at_bin_11 ledsIdle spike11 h1 h2).2.2.2.2.2.2.2⟩

/-- C10: two magnitude buffers that agree on bins 1..17 give the same signals and the same report
line (classification, frequency, magnitudes) in the band-peak and decision stages, whatever
their bin 0; hence `runDetection`, which first scales bin 0 by 0.1, gives what those stages give
without the scaling, and `runDetection` itself gives the same on both buffers. -/
theorem C10_dc_bin_irrelevant {α : Type} [LinearOrderedField α] (leds : Leds)
    (m m' : Nat → α) (h : ∀ k, 1 ≤ k → k ≤ 17 → m k = m' k) :
    detect leds m = detect leds m' ∧
    (tremPeak m = tremPeak m' ∧ dyskPeak m = dyskPeak m' ∧ baseline m = baseline m' ∧
      tremFreq m = tremFreq m' ∧ dyskFreq m = dyskFreq m') ∧
    detect leds (dcAttenuate m) = detect leds m ∧
    runDetection leds m = runDetection leds m' := by
  obtain ⟨hT, hD, hB⟩ := peaks_congr m m' h
  refine ⟨detect_congr leds m m' h, ⟨hT, hD, hB, ?_, ?_⟩, runDetection_eq_detect leds m, ?_⟩
  · unfold tremFreq; rw [hT]
  · unfold dyskFreq; rw [hD]
  · rw [runDetection_eq_detect, runDetection_eq_detect]
    exact detect_congr leds m m' h

/-- C10, at a line at bin 11 with two different DC bins. -/
theorem C10_dc_bin_irrelevant_witness :
    (∀ k, 1 ≤ k → k ≤ 17 → spike11 k = Function.update spike11 0 1000 k) ∧
    runDetection ledsIdle spike11 = runDetection ledsIdle (Function.update spike11 0 1000) :=
  have h : ∀ k, 1 ≤ k → k ≤ 17 → spike11 k = Function.update spike11 0 1000 k := by
    intro k hk _
    rw [Function.update_noteq (by omega)]
  ⟨h, (C10_dc_bin_irrelevant ledsIdle spike11 (Function.update spike11 0 1000) h).2.2.2⟩

/-- C2: for every magnitude buffer with non-negative entries (in particular the one computed from
samples of a 4 Hz sine of any amplitude), `runDetection` does not report Tremor with a frequency
within `104/256` Hz of 4 Hz; and when no bin of 11..17 exceeds bin 10 (the bin nearest to
4 Hz), it reports None and asserts `ledNone`. -/
theorem C2_no_tremor_at_4Hz {α : Type} [LinearOrderedField α] (leds : Leds)
    (magOut : Nat → α) (hm : ∀ k, 0 ≤ magOut k) :
    ¬ ((runDetection leds magOut).2.classification = Classification.tremor ∧
        |tremFreq (dcAttenuate magOut) - 4| ≤ 104 / 256) ∧
    ((∀ k, 11 ≤ k → k ≤ 17 → magOut k ≤ magOut 10) →
      (runDetection leds magOut).2.classification = Classification.none ∧
      (runDetection leds magOut).1 = { ledTremor := 0, ledDysk := 0, ledNone := 1 }) := by
  have hd : ∀ k, 1 ≤ k → k ≤ 10 → 0 ≤ dcAttenuate magOut k := by
    intro k hk _
    rw [dcAttenuate_of_pos magOut k hk]; exact hm k
  have hm' : ∀ k, 1 ≤ k → k ≤ 10 → 0 ≤ magOut k := fun k _ _ => hm k
  constructor
  · rintro ⟨hT, hf⟩
    have hc := (decision_classification leds (tremFreq (dcAttenuate magOut))
      (dyskFreq (dcAttenuate magOut)) (tremPeak (dcAttenuate magOut)).1
      (dyskPeak (dcAttenuate magOut)).1 (baseline (dcAttenuate magOut))).1.mp hT
    obtain ⟨hidx, _, _⟩ := tremor_peak_at_11 (dcAttenuate magOut) hd hc.1 hc.2
    have hfreq : tremFreq (dcAttenuate magOut) = 143 / 32 := by
      unfold tremFreq
      rw [hidx, t0_eq]
      norm_num [SAMPLE_RATE_HZ, FFT_SIZE]
    rw [hfreq] at hf
    have habs : |(143 / 32 : α) - 4| = 15 / 32 := by
      rw [abs_of_nonneg (by norm_num)]; norm_num
    rw [habs] at hf
    norm_num at hf
  · intro hpk
    have hnT : ¬ ((tremPeak magOut).1 > (dyskPeak magOut).1 ∧
        (tremPeak magOut).1 > baseline magOut * 10) := by
      rintro ⟨h1, h2⟩
      obtain ⟨_, hval, _⟩ := tremor_peak_at_11 magOut hm' h1 h2
      have h10 := low_bins_le_threshold magOut hm' 10 (by omega) (by omega)
      have h11 := hpk 11 (by omega) (by omega)
      rw [hval] at h2
      linarith
    have hnD : ¬ ((dyskPeak magOut).1 > (tremPeak magOut).1 ∧
        (dyskPeak magOut).1 > baseline magOut * 10) := by
      rintro ⟨h1, _⟩
      obtain ⟨hi, hv, _, _⟩ := dyskPeak_spec magOut
      have hle : (dyskPeak magOut).1 ≤ magOut 10 := by
        rw [← hv]; exact hpk _ (by omega) (by omega)
      have h10 := (tremPeak_spec magOut).2.2.1 3 (by omega)
      norm_num at h10
      linarith
    have hnone := (decision_classification leds (tremFreq magOut) (dyskFreq magOut)
      (tremPeak magOut).1 (dyskPeak magOut).1 (baseline magOut)).2.2.mpr ⟨hnT, hnD⟩
    rw [runDetection_eq_detect]
    refine ⟨hnone, ?_⟩
    unfold detect decision
    simp only [hnT, hnD, if_false]

/-- C2, at a spectrum shaped like the main lobe of a windowed 4 Hz sine. -/
theorem C2_no_tremor_at_4Hz_witness :
    (∀ k, 0 ≤ lobe4Hz k) ∧
    (∀ k, 11 ≤ k → k ≤ 17 → lobe4Hz k ≤ lobe4Hz 10) ∧
    (runDetection ledsIdle lobe4Hz).2.classification = Classification.none ∧
    (runDetection ledsIdle lobe4Hz).1 = { ledTremor := 0, ledDysk := 0, ledNone := 1 } :=
  have h1 : ∀ k, 0 ≤ lobe4Hz k := by
    intro k; unfold lobe4Hz; split_ifs <;> norm_num
  have h2 : ∀ k, 11 ≤ k → k ≤ 17 → lobe4Hz k ≤ lobe4Hz 10 := by
    intro k _ _
    have h10 : lobe4Hz 10 = 970 := by simp [lobe4Hz]
    rw [h10]; unfold lobe4Hz; split_ifs <;> norm_num
  ⟨h1, h2, (C2_no_tremor_at_4Hz ledsIdle lobe4Hz h1).2 h2⟩


/-! ## Single precision: properties of the rounding -/

theorem rne_intCast (n : ℤ) : rne (n : ℚ) = n := by
  unfold rne
  simp

theorem floor_le_rne (x : ℚ) : ⌊x⌋ ≤ rne x := by
  unfold rne
  split_ifs <;> omega

theorem rne_le_floor_add_one (x : ℚ) : rne x ≤ ⌊x⌋ + 1 := by
  unfold rne
  split_ifs <;> omega

theorem intCast_le_rne (a : ℤ) (x : ℚ) (h : (a : ℚ) ≤ x) : a ≤ rne x :=
  le_trans (Int.le_floor.mpr h) (floor_le_rne x)

theorem rne_le_intCast (b : ℤ) (x : ℚ) (h : x ≤ (b : ℚ)) : rne x ≤ b := by
  have hf : ⌊x⌋ ≤ b := by
    have := Int.floor_le x
    exact_mod_cast le_trans this h
  rcases lt_or_eq_of_le hf with hlt | heq
  · have := rne_le_floor_add_one x
    omega
  · have hx : x = (b : ℚ) := by
      apply le_antisymm h
      rw [← heq]; exact Int.floor_le x
    rw [hx, rne_intCast]

theorem rne_mono (x y : ℚ) (h : x ≤ y) : rne x ≤ rne y := by
  have hf : ⌊x⌋ ≤ ⌊y⌋ := Int.floor_mono h
  rcases lt_or_eq_of_le hf with hlt | heq
  · have h1 := rne_le_floor_add_one x
    have h2 := floor_le_rne y
    omega
  · have hxy : x - ⌊x⌋ ≤ y - ⌊y⌋ := by
      rw [heq]; linarith
    unfold rne
    rw [heq]
    split_ifs <;> first | omega | linarith

theorem two_zpow_pos (z : ℤ) : (0 : ℚ) < 2 ^ z := zpow_pos (by norm_num) z

theorem roundMag_nonneg (q : ℚ) (hq : 0 ≤ q) : 0 ≤ roundMag q := by
  unfold roundMag
  have h0 : (0 : ℤ) ≤ rne (q / 2 ^ ulpExp q) :=
    intCast_le_rne 0 _ (by simpa using div_nonneg hq (le_of_lt (two_zpow_pos _)))
  exact mul_nonneg (by exact_mod_cast h0) (le_of_lt (two_zpow_pos _))

theorem roundMag_le_pow (q : ℚ) : roundMag q ≤ 2 ^ (ulpExp q + 24) := by
  unfold roundMag
  have hlt : q < 2 ^ (Int.log 2 q + 1) := by
    have := Int.lt_zpow_succ_log_self (R := ℚ) (b := 2) (by norm_num) q
    simpa using this
  have hle : (2 : ℚ) ^ (Int.log 2 q + 1) ≤ 2 ^ (ulpExp q + 24) := by
    apply zpow_le_zpow_right₀ (by norm_num)
    unfold ulpExp
    have := le_max_left (Int.log 2 q) (-126)
    omega
  have hdiv : q / 2 ^ ulpExp q ≤ ((2 ^ 24 : ℤ) : ℚ) := by
    rw [div_le_iff₀ (two_zpow_pos _)]
    have : ((2 ^ 24 : ℤ) : ℚ) * 2 ^ ulpExp q = 2 ^ (ulpExp q + 24) := by
      rw [zpow_add₀ (by norm_num)]; push_cast; ring
    rw [this]; linarith
  have hr := rne_le_intCast (2 ^ 24) _ hdiv
  have hr' : (rne (q / 2 ^ ulpExp q) : ℚ) ≤ ((2 ^ 24 : ℤ) : ℚ) := by exact_mod_cast hr
  calc (rne (q / 2 ^ ulpExp q) : ℚ) * 2 ^ ulpExp q
      ≤ ((2 ^ 24 : ℤ) : ℚ) * 2 ^ ulpExp q :=
        mul_le_mul_of_nonneg_right hr' (le_of_lt (two_zpow_pos _))
    _ = 2 ^ (ulpExp q + 24) := by
        rw [zpow_add₀ (by norm_num)]; push_cast; ring

theorem pow_le_roundMag (q : ℚ) (hq : 0 < q) (hlog : -126 ≤ Int.log 2 q) :
    2 ^ (ulpExp q + 23) ≤ roundMag q := by
  unfold roundMag
  have hU : ulpExp q + 23 = Int.log 2 q := by
    unfold ulpExp; rw [max_eq_left hlog]; ring
  have hge : (2 : ℚ) ^ (ulpExp q + 23) ≤ q := by
    rw [hU]
    have := Int.zpow_log_le_self (R := ℚ) (b := 2) (by norm_num) hq
    simpa using this
  have hdiv : ((2 ^ 23 : ℤ) : ℚ) ≤ q / 2 ^ ulpExp q := by
    rw [le_div_iff₀ (two_zpow_pos _)]
    have : ((2 ^ 23 : ℤ) : ℚ) * 2 ^ ulpExp q = 2 ^ (ulpExp q + 23) := by
      rw [zpow_add₀ (by norm_num)]; push_cast; ring
    rw [this]; exact hge
  have hr := intCast_le_rne (2 ^ 23) _ hdiv
  have hr' : ((2 ^ 23 : ℤ) : ℚ) ≤ (rne (q / 2 ^ ulpExp q) : ℚ) := by exact_mod_cast hr
  calc (2 : ℚ) ^ (ulpExp q + 23) = ((2 ^ 23 : ℤ) : ℚ) * 2 ^ ulpExp q := by
        rw [zpow_add₀ (by norm_num)]; push_cast; ring
    _ ≤ (rne (q / 2 ^ ulpExp q) : ℚ) * 2 ^ ulpExp q :=
        mul_le_mul_of_nonneg_right hr' (le_of_lt (two_zpow_pos _))

theorem roundMag_zero : roundMag 0 = 0 := by
  unfold roundMag
  have : rne ((0 : ℚ) / 2 ^ ulpExp 0) = 0 := by
    rw [zero_div]; exact_mod_cast rne_intCast 0
  rw [this]; simp

theorem roundMag_mono (a b : ℚ) (ha : 0 ≤ a) (hab : a ≤ b) : roundMag a ≤ roundMag b := by
  rcases eq_or_lt_of_le ha with h0 | hpos
  · rw [← h0, roundMag_zero]; exact roundMag_nonneg b (le_trans ha hab)
  · have hb : 0 < b := lt_of_lt_of_le hpos hab
    have hlog : Int.log 2 a ≤ Int.log 2 b := Int.log_mono_right hpos hab
    have hU : ulpExp a ≤ ulpExp b := by
      unfold ulpExp
      have := max_le_max hlog (le_refl (-126 : ℤ))
      omega
    rcases eq_or_lt_of_le hU with heq | hlt
    · unfold roundMag
      rw [heq]
      have hdiv : a / 2 ^ ulpExp b ≤ b / 2 ^ ulpExp b :=
        div_le_div_of_nonneg_right hab (le_of_lt (two_zpow_pos _))
      have hr := rne_mono _ _ hdiv
      exact mul_le_mul_of_nonneg_right (by exact_mod_cast hr) (le_of_lt (two_zpow_pos _))
    · have hlogb : -126 ≤ Int.log 2 b := by
        unfold ulpExp at hlt
        by_contra hcon
        push_neg at hcon
        rw [max_eq_right (le_of_lt hcon)] at hlt
        have := le_max_right (Int.log 2 a) (-126)
        omega
      calc roundMag a ≤ 2 ^ (ulpExp a + 24) := roundMag_le_pow a
        _ ≤ 2 ^ (ulpExp b + 23) := zpow_le_zpow_right₀ (by norm_num) (by omega)
        _ ≤ roundMag b := pow_le_roundMag b hb hlogb

theorem roundMag_dyadic (m : ℕ) (e : ℤ) (hm : m < 2 ^ 24) (he : -149 ≤ e) :
    roundMag ((m : ℚ) * 2 ^ e) = (m : ℚ) * 2 ^ e := by
  rcases Nat.eq_zero_or_pos m with h0 | hpos
  · subst h0; simp [roundMag_zero]
  · have hq : (0 : ℚ) < (m : ℚ) * 2 ^ e :=
      mul_pos (by exact_mod_cast hpos) (two_zpow_pos e)
    have hlt : (m : ℚ) * 2 ^ e < 2 ^ (e + 24) := by
      rw [zpow_add₀ (by norm_num), mul_comm]
      apply mul_lt_mul_of_pos_left _ (two_zpow_pos e)
      have h24 : (m : ℚ) < ((2 ^ 24 : ℕ) : ℚ) := by exact_mod_cast hm
      norm_num at h24 ⊢
      exact h24
    have hlog : Int.log 2 ((m : ℚ) * 2 ^ e) < e + 24 := by
      have := (Int.lt_zpow_iff_log_lt (R := ℚ) (b := 2) (by norm_num) hq (x := e + 24)).mp
        (by simpa using hlt)
      exact this
    have hU : ulpExp ((m : ℚ) * 2 ^ e) ≤ e := by
      unfold ulpExp
      have := max_le (a := Int.log 2 ((m : ℚ) * 2 ^ e)) (b := -126) (c := e + 23)
        (by omega) (by omega)
      omega
    obtain ⟨j, hj⟩ : ∃ j : ℕ, e = ulpExp ((m : ℚ) * 2 ^ e) + j :=
      ⟨(e - ulpExp ((m : ℚ) * 2 ^ e)).toNat, by omega⟩
    have hdiv : (m : ℚ) * 2 ^ e / 2 ^ ulpExp ((m : ℚ) * 2 ^ e) = (((m * 2 ^ j : ℕ) : ℤ) : ℚ) := by
      rw [div_eq_iff (ne_of_gt (two_zpow_pos _))]
      nth_rewrite 1 [hj]
      rw [zpow_add₀ (by norm_num), zpow_natCast]
      push_cast; ring
    unfold roundMag
    rw [hdiv, rne_intCast]
    rw [← hdiv]
    field_simp

theorem roundMag_large (q : ℚ) (hq : 2 ^ 23 ≤ q) : ∃ n : ℕ, roundMag q = (n : ℚ) := by
  have hpos : (0 : ℚ) < q := lt_of_lt_of_le (by norm_num) hq
  have hlog : (23 : ℤ) ≤ Int.log 2 q := by
    apply (Int.zpow_le_iff_le_log (R := ℚ) (b := 2) (by norm_num) hpos).mp
    have h2 : ((2 : ℕ) : ℚ) ^ (23 : ℤ) = 2 ^ 23 := by norm_num
    rw [h2]; exact hq
  have hU : 0 ≤ ulpExp q := by
    unfold ulpExp
    have := le_max_left (Int.log 2 q) (-126)
    omega
  obtain ⟨j, hj⟩ : ∃ j : ℕ, ulpExp q = j := ⟨(ulpExp q).toNat, by omega⟩
  have h0 : (0 : ℤ) ≤ rne (q / 2 ^ ulpExp q) :=
    intCast_le_rne 0 _ (by simpa using div_nonneg (le_of_lt hpos) (le_of_lt (two_zpow_pos _)))
  obtain ⟨r, hr⟩ : ∃ r : ℕ, rne (q / 2 ^ ulpExp q) = r := ⟨(rne (q / 2 ^ ulpExp q)).toNat, by omega⟩
  refine ⟨r * 2 ^ j, ?_⟩
  unfold roundMag
  rw [hr, hj, zpow_natCast]
  push_cast; ring

theorem roundF32_of_nonneg (q : ℚ) (hq : 0 ≤ q) : roundF32 q = roundMag q := by
  unfold roundF32
  rw [if_neg (not_lt.mpr hq)]

theorem roundF32_nonneg (q : ℚ) (hq : 0 ≤ q) : 0 ≤ roundF32 q := by
  rw [roundF32_of_nonneg q hq]; exact roundMag_nonneg q hq

theorem roundF32_mono (a b : ℚ) (ha : 0 ≤ a) (hab : a ≤ b) : roundF32 a ≤ roundF32 b := by
  rw [roundF32_of_nonneg a ha, roundF32_of_nonneg b (le_trans ha hab)]
  exact roundMag_mono a b ha hab

theorem roundF32_dyadic (m : ℕ) (e : ℤ) (hm : m < 2 ^ 24) (he : -149 ≤ e) :
    roundF32 ((m : ℚ) * 2 ^ e) = (m : ℚ) * 2 ^ e := by
  rw [roundF32_of_nonneg _ (mul_nonneg (Nat.cast_nonneg m) (le_of_lt (two_zpow_pos e)))]
  exact roundMag_dyadic m e hm he

theorem roundF32_natCast (n : ℕ) (hn : n < 2 ^ 24) : roundF32 (n : ℚ) = (n : ℚ) := by
  have h := roundF32_dyadic n 0 hn (by norm_num)
  simpa using h

theorem roundF32_two_pow (k : ℕ) (hk : k ≤ 127) : roundF32 ((2 : ℚ) ^ k) = (2 : ℚ) ^ k := by
  have h := roundF32_dyadic 1 (k : ℤ) (by norm_num) (by omega)
  simpa using h

theorem roundF32_large (q : ℚ) (hq : 2 ^ 23 ≤ q) : ∃ n : ℕ, roundF32 q = (n : ℚ) := by
  rw [roundF32_of_nonneg q (le_trans (by norm_num) hq)]
  exact roundMag_large q hq

/-- Rounded values on both sides of a gap of at least one still have an integer between. -/
theorem ceil_round_le_floor_round (x y : ℚ) (hx : 0 ≤ x) (hxy : x + 1 ≤ y) :
    ⌈roundF32 x⌉₊ ≤ ⌊roundF32 y⌋₊ := by
  have hy : 0 ≤ y := by linarith
  have hc1 : x ≤ (⌈x⌉₊ : ℚ) := Nat.le_ceil x
  have hc2 : (⌈x⌉₊ : ℚ) < x + 1 := Nat.ceil_lt_add_one hx
  rcases Nat.lt_or_ge ⌈x⌉₊ (2 ^ 24) with hsmall | hbig
  · have hfix := roundF32_natCast ⌈x⌉₊ hsmall
    have h1 : roundF32 x ≤ (⌈x⌉₊ : ℚ) := by
      rw [← hfix]; exact roundF32_mono x _ hx hc1
    have h2 : (⌈x⌉₊ : ℚ) ≤ roundF32 y := by
      rw [← hfix]; exact roundF32_mono _ y (Nat.cast_nonneg _) (by linarith)
    exact le_trans (Nat.ceil_le.mpr h1) (Nat.le_floor h2)
  · have hbig' : (16777216 : ℚ) ≤ (⌈x⌉₊ : ℚ) := by exact_mod_cast hbig
    have hx23 : (2 : ℚ) ^ 23 ≤ x := by
      norm_num
      linarith
    obtain ⟨i, hi⟩ := roundF32_large x hx23
    obtain ⟨j, hj⟩ := roundF32_large y (by linarith)
    have hij : (i : ℚ) ≤ (j : ℚ) := by
      rw [← hi, ← hj]; exact roundF32_mono x y hx (by linarith)
    rw [hi, hj, Nat.ceil_natCast, Nat.floor_natCast]
    exact_mod_cast hij


/-! ## Bin ranges -/

/-- Evaluating a rounded ceiling from a representable lower bound. -/
theorem ceil_round_eq (x : ℚ) (n m : ℕ) (e : ℤ) (hm : m < 2 ^ 24) (he : -149 ≤ e)
    (hn : n < 2 ^ 24) (hlo : ((n : ℚ) - 1) < (m : ℚ) * 2 ^ e) (hx1 : (m : ℚ) * 2 ^ e ≤ x)
    (hx2 : x ≤ n) : ⌈roundF32 x⌉₊ = n := by
  have hpos : (0 : ℚ) ≤ (m : ℚ) * 2 ^ e := mul_nonneg (Nat.cast_nonneg m) (le_of_lt (two_zpow_pos e))
  have h1 : (m : ℚ) * 2 ^ e ≤ roundF32 x := by
    rw [← roundF32_dyadic m e hm he]; exact roundF32_mono _ _ hpos hx1
  have h2 : roundF32 x ≤ n := by
    rw [← roundF32_natCast n hn]; exact roundF32_mono _ _ (le_trans hpos hx1) hx2
  apply le_antisymm (Nat.ceil_le.mpr h2)
  rcases Nat.eq_zero_or_pos n with h0 | hnpos
  · omega
  · have : n - 1 < ⌈roundF32 x⌉₊ := by
      apply Nat.lt_ceil.mpr
      have hc : ((n - 1 : ℕ) : ℚ) = (n : ℚ) - 1 := by
        rw [Nat.cast_sub hnpos]; simp
      rw [hc]; linarith
    omega

/-- Evaluating a rounded floor from a representable upper bound. -/
theorem floor_round_eq (x : ℚ) (n m : ℕ) (e : ℤ) (hm : m < 2 ^ 24) (he : -149 ≤ e)
    (hn : n < 2 ^ 24) (hx1 : (n : ℚ) ≤ x) (hx2 : x ≤ (m : ℚ) * 2 ^ e)
    (hhi : (m : ℚ) * 2 ^ e < (n : ℚ) + 1) : ⌊roundF32 x⌋₊ = n := by
  have hx0 : (0 : ℚ) ≤ x := le_trans (Nat.cast_nonneg n) hx1
  have h1 : (n : ℚ) ≤ roundF32 x := by
    rw [← roundF32_natCast n hn]; exact roundF32_mono _ _ (Nat.cast_nonneg n) hx1
  have h2 : roundF32 x ≤ (m : ℚ) * 2 ^ e := by
    rw [← roundF32_dyadic m e hm he]; exact roundF32_mono _ _ hx0 hx2
  rw [Nat.floor_eq_iff (le_trans (Nat.cast_nonneg n) h1)]
  exact ⟨h1, by linarith⟩

theorem bin_width_256_104 : bin_width (signal_init 256 104) = 13 / 32 := by
  have h1 : roundF32 ((256 : ℕ) : ℚ) = ((256 : ℕ) : ℚ) := roundF32_natCast 256 (by norm_num)
  have h2 := roundF32_dyadic 13 (-5) (by norm_num) (by norm_num)
  have e : ((13 : ℕ) : ℚ) * 2 ^ (-5 : ℤ) = 104 / ((256 : ℕ) : ℚ) := by norm_num
  unfold bin_width signal_init
  simp only [h1]
  rw [← e, h2]; norm_num

theorem bin_width_16_104 : bin_width (signal_init 16 104) = 13 / 2 := by
  have h1 : roundF32 ((16 : ℕ) : ℚ) = ((16 : ℕ) : ℚ) := roundF32_natCast 16 (by norm_num)
  have h2 := roundF32_dyadic 13 (-1) (by norm_num) (by norm_num)
  have e : ((13 : ℕ) : ℚ) * 2 ^ (-1 : ℤ) = 104 / ((16 : ℕ) : ℚ) := by norm_num
  unfold bin_width signal_init
  simp only [h1]
  rw [← e, h2]; norm_num

theorem bin_width_256_8 : bin_width (signal_init 256 8) = 1 / 32 := by
  have h1 : roundF32 ((256 : ℕ) : ℚ) = ((256 : ℕ) : ℚ) := roundF32_natCast 256 (by norm_num)
  have h2 := roundF32_dyadic 1 (-5) (by norm_num) (by norm_num)
  have e : ((1 : ℕ) : ℚ) * 2 ^ (-5 : ℤ) = 8 / ((256 : ℕ) : ℚ) := by norm_num
  unfold bin_width signal_init
  simp only [h1]
  rw [← e, h2]; norm_num

theorem bins_256_104 :
    t_lo (signal_init 256 104) = 8 ∧ t_hi (signal_init 256 104) = 12 ∧
    d_lo (signal_init 256 104) = 13 ∧ d_hi (signal_init 256 104) = 17 := by
  unfold t_lo t_hi d_lo d_hi
  rw [bin_width_256_104]
  refine ⟨?_, ?_, ?_, ?_⟩
  · exact ceil_round_eq _ 8 29 (-2) (by norm_num) (by norm_num) (by norm_num) (by norm_num)
      (by norm_num) (by norm_num)
  · exact floor_round_eq _ 12 25 (-1) (by norm_num) (by norm_num) (by norm_num) (by norm_num)
      (by norm_num) (by norm_num)
  · exact ceil_round_eq _ 13 49 (-2) (by norm_num) (by norm_num) (by norm_num) (by norm_num)
      (by norm_num) (by norm_num)
  · exact floor_round_eq _ 17 35 (-1) (by norm_num) (by norm_num) (by norm_num) (by norm_num)
      (by norm_num) (by norm_num)

theorem bins_16_104 :
    t_lo (signal_init 16 104) = 1 ∧ t_hi (signal_init 16 104) = 0 ∧
    d_lo (signal_init 16 104) = 1 ∧ d_hi (signal_init 16 104) = 1 := by
  unfold t_lo t_hi d_lo d_hi
  rw [bin_width_16_104]
  refine ⟨?_, ?_, ?_, ?_⟩
  · exact ceil_round_eq _ 1 1 (-2) (by norm_num) (by norm_num) (by norm_num) (by norm_num)
      (by norm_num) (by norm_num)
  · exact floor_round_eq _ 0 7 (-3) (by norm_num) (by norm_num) (by norm_num) (by norm_num)
      (by norm_num) (by norm_num)
  · exact ceil_round_eq _ 1 1 (-1) (by norm_num) (by norm_num) (by norm_num) (by norm_num)
      (by norm_num) (by norm_num)
  · exact floor_round_eq _ 1 5 (-2) (by norm_num) (by norm_num) (by norm_num) (by norm_num)
      (by norm_num) (by norm_num)

theorem bins_256_8 :
    t_lo (signal_init 256 8) = 96 ∧ t_hi (signal_init 256 8) = 160 ∧
    d_lo (signal_init 256 8) = 160 ∧ d_hi (signal_init 256 8) = 224 := by
  unfold t_lo t_hi d_lo d_hi
  rw [bin_width_256_8]
  have h96 : roundF32 ((3 : ℚ) / (1 / 32)) = ((96 : ℕ) : ℚ) := by
    have := roundF32_natCast 96 (by norm_num)
    rw [← this]; norm_num
  have h160 : roundF32 ((5 : ℚ) / (1 / 32)) = ((160 : ℕ) : ℚ) := by
    have := roundF32_natCast 160 (by norm_num)
    rw [← this]; norm_num
  have h224 : roundF32 ((7 : ℚ) / (1 / 32)) = ((224 : ℕ) : ℚ) := by
    have := roundF32_natCast 224 (by norm_num)
    rw [← this]; norm_num
  rw [h96, h160, h224]
  exact ⟨Nat.ceil_natCast 96, Nat.floor_natCast 160, Nat.ceil_natCast 160, Nat.floor_natCast 224⟩

/-- The band edges of `runDetection` are the same when the product and the quotient of lines
94-102 are rounded to single precision. -/
theorem wired_bins_single_precision :
    ⌊roundF32 (roundF32 (3 * 256) / roundF32 104)⌋₊ = t0 ∧
    ⌊roundF32 (roundF32 (5 * 256) / roundF32 104)⌋₊ = t1 ∧
    ⌊roundF32 (roundF32 (5 * 256) / roundF32 104)⌋₊ = d0 ∧
    ⌊roundF32 (roundF32 (7 * 256) / roundF32 104)⌋₊ = d1 := by
  have h104 : roundF32 (104 : ℚ) = 104 := by
    have := roundF32_natCast 104 (by norm_num)
    simpa using this
  have h768 : roundF32 ((3 : ℚ) * 256) = 768 := by
    have := roundF32_natCast 768 (by norm_num)
    rw [show (3 : ℚ) * 256 = ((768 : ℕ) : ℚ) by norm_num, this]; norm_num
  have h1280 : roundF32 ((5 : ℚ) * 256) = 1280 := by
    have := roundF32_natCast 1280 (by norm_num)
    rw [show (5 : ℚ) * 256 = ((1280 : ℕ) : ℚ) by norm_num, this]; norm_num
  have h1792 : roundF32 ((7 : ℚ) * 256) = 1792 := by
    have := roundF32_natCast 1792 (by norm_num)
    rw [show (7 : ℚ) * 256 = ((1792 : ℕ) : ℚ) by norm_num, this]; norm_num
  rw [h104, h768, h1280, h1792, t0_eq, t1_eq, d0_eq, d1_eq]
  refine ⟨?_, ?_, ?_, ?_⟩
  · exact floor_round_eq _ 7 15 (-1) (by norm_num) (by norm_num) (by norm_num) (by norm_num)
      (by norm_num) (by norm_num)
  · exact floor_round_eq _ 12 25 (-1) (by norm_num) (by norm_num) (by norm_num) (by norm_num)
      (by norm_num) (by norm_num)
  · exact floor_round_eq _ 12 25 (-1) (by norm_num) (by norm_num) (by norm_num) (by norm_num)
      (by norm_num) (by norm_num)
  · exact floor_round_eq _ 17 35 (-1) (by norm_num) (by norm_num) (by norm_num) (by norm_num)
      (by norm_num) (by norm_num)

/-- For a power-of-two window the bin width is between `14 / N` and 2. -/
theorem bin_width_bounds (N k : Nat) (fs : ℚ) (hN : N = 2 ^ k) (hk : k < 32)
    (h14 : 14 ≤ fs) (h2N : fs ≤ 2 * N) :
    (14 : ℚ) / N ≤ bin_width (signal_init N fs) ∧ bin_width (signal_init N fs) ≤ 2 := by
  have hNq : (N : ℚ) = 2 ^ k := by rw [hN]; push_cast; rfl
  have hNpos : (0 : ℚ) < N := by rw [hNq]; positivity
  have hfixN : roundF32 (N : ℚ) = N := by
    rw [hNq]; exact roundF32_two_pow k (by omega)
  have hfix14 : roundF32 ((14 : ℚ) / N) = 14 / N := by
    have h := roundF32_dyadic 14 (-(k : ℤ)) (by norm_num) (by omega)
    have e : ((14 : ℕ) : ℚ) * 2 ^ (-(k : ℤ)) = 14 / N := by
      rw [hNq, zpow_neg, zpow_natCast]; push_cast; ring
    rw [e] at h; exact h
  have hfix2 : roundF32 (2 : ℚ) = 2 := by
    have h := roundF32_natCast 2 (by norm_num)
    simpa using h
  unfold bin_width signal_init
  simp only [hfixN]
  constructor
  · rw [← hfix14]
    exact roundF32_mono _ _ (by positivity) (div_le_div_of_nonneg_right h14 (le_of_lt hNpos))
  · rw [← hfix2]
    apply roundF32_mono _ _ (div_nonneg (by linarith) (le_of_lt hNpos))
    rw [div_le_iff₀ hNpos]; linarith

theorem band_range_ok (N k : Nat) (bw a b : ℚ) (hN : N = 2 ^ k) (hk : k < 32) (hk1 : 1 ≤ k)
    (ha : 0 ≤ a) (hab : a + 2 = b) (hb : b ≤ 7) (hlo : (14 : ℚ) / N ≤ bw) (hhi : bw ≤ 2) :
    rangeOk N ⌈roundF32 (a / bw)⌉₊ ⌊roundF32 (b / bw)⌋₊ := by
  have hNq : (N : ℚ) = 2 ^ k := by rw [hN]; push_cast; rfl
  have hNpos : (0 : ℚ) < N := by rw [hNq]; positivity
  have hbw : (0 : ℚ) < bw := lt_of_lt_of_le (by positivity) hlo
  have hx0 : 0 ≤ a / bw := div_nonneg ha (le_of_lt hbw)
  have hgap : a / bw + 1 ≤ b / bw := by
    rw [← hab, add_div]
    have : (1 : ℚ) ≤ 2 / bw := by
      rw [le_div_iff₀ hbw]; linarith
    linarith
  refine ⟨Nat.zero_le _, ceil_round_le_floor_round _ _ hx0 hgap, ?_⟩
  obtain ⟨j, hj⟩ : ∃ j, k = j + 1 := ⟨k - 1, by omega⟩
  have hhalf : N / 2 = 2 ^ j := by
    rw [hN, hj, pow_succ]; simp
  have hhalfq : ((N / 2 : ℕ) : ℚ) = (N : ℚ) / 2 := by
    rw [hhalf, hNq, hj, pow_succ]; push_cast; ring
  have hfix : roundF32 ((N : ℚ) / 2) = (N : ℚ) / 2 := by
    rw [← hhalfq, hhalf]; push_cast
    exact roundF32_two_pow j (by omega)
  have hy : b / bw ≤ (N : ℚ) / 2 := by
    rw [div_le_iff₀ hbw]
    have h1 : (N : ℚ) / 2 * (14 / N) ≤ N / 2 * bw :=
      mul_le_mul_of_nonneg_left hlo (by positivity)
    have h2 : (N : ℚ) / 2 * (14 / N) = 7 := by field_simp; ring
    linarith
  have hr : roundF32 (b / bw) ≤ (N : ℚ) / 2 := by
    rw [← hfix]
    exact roundF32_mono _ _ (by linarith) hy
  apply Nat.floor_le_of_le
  rw [hhalfq]; exact hr

/-- C3: the wired pipeline truncates both band edges: `runDetection` searches bins
`[t0, t1] = [7, 12]` for tremor and `[d0, d1] = [12, 17]` for dyskinesia, whereas
`[ceil(f_lo/delta_f), floor(f_hi/delta_f)]`, which is what `process_window` computes for
`N = 256`, `fs = 104`, is `[8, 12]` and `[13, 17]`. On a line at bin 12 (4.875 Hz) the two differ
visibly: `runDetection` reports None with both peaks equal, while the peaks over `[8, 12]` and
`[13, 17]` give Tremor. -/
theorem C3_wired_bins_truncated :
    (t0, t1) = (7, 12) ∧ (d0, d1) = (12, 17) ∧
    (t_lo (signal_init 256 104), t_hi (signal_init 256 104)) = (8, 12) ∧
    (d_lo (signal_init 256 104), d_hi (signal_init 256 104)) = (13, 17) ∧
    (t0, t1) ≠ (t_lo (signal_init 256 104), t_hi (signal_init 256 104)) ∧
    (d0, d1) ≠ (d_lo (signal_init 256 104), d_hi (signal_init 256 104)) ∧
    runDetection ledsIdle spike12 =
      ({ ledTremor := 0, ledDysk := 0, ledNone := 1 }, Report.none 1 1) ∧
    (decision ledsIdle 0 0 (arm_max_f32 (fun i => spike12 (8 + i)) (12 - 8 + 1)).1
      (arm_max_f32 (fun i => spike12 (13 + i)) (17 - 13 + 1)).1
      (baseline spike12)).2.classification = Classification.tremor := by
  obtain ⟨b1, b2, b3, b4⟩ := bins_256_104
  refine ⟨?_, ?_, ?_, ?_, ?_, ?_, ?_, ?_⟩
  · rw [t0_eq, t1_eq]
  · rw [d0_eq, d1_eq]
  · rw [b1, b2]
  · rw [b3, b4]
  · rw [t0_eq, t1_eq, b1, b2]; decide
  · rw [d0_eq, d1_eq, b3, b4]; decide
  · rw [runDetection_eq_detect]
    norm_num [detect, decision, tremPeak, dyskPeak, baseline, arm_max_f32, arm_mean_f32, t0_eq,
      t1_eq, d0_eq, d1_eq, spike12, List.range_succ]
  · norm_num [decision, baseline, arm_max_f32, arm_mean_f32, spike12, List.range_succ,
      Report.classification]

/-- C7, as stated, fails: `signal_init` accepts `N = 16`, `fs = 104` (bin width 6.5 Hz), for
which the tremor range is `[1, 0]`, and `N = 256`, `fs = 8` (Nyquist 4 Hz), for which the
ranges are `[96, 160]` and `[160, 224]` with `N/2 = 128`. -/
theorem C7_counterexample :
    ¬ (∀ (N : Nat) (fs : ℚ), (∃ k, N = 2 ^ k) → 0 < fs →
        rangeOk N (t_lo (signal_init N fs)) (t_hi (signal_init N fs)) ∧
        rangeOk N (d_lo (signal_init N fs)) (d_hi (signal_init N fs))) ∧
    ¬ rangeOk 16 (t_lo (signal_init 16 104)) (t_hi (signal_init 16 104)) ∧
    ¬ rangeOk 256 (t_lo (signal_init 256 8)) (t_hi (signal_init 256 8)) ∧
    ¬ rangeOk 256 (d_lo (signal_init 256 8)) (d_hi (signal_init 256 8)) := by
  obtain ⟨a1, a2, _, _⟩ := bins_16_104
  obtain ⟨c1, c2, c3, c4⟩ := bins_256_8
  have h16 : ¬ rangeOk 16 (t_lo (signal_init 16 104)) (t_hi (signal_init 16 104)) := by
    rw [a1, a2]; unfold rangeOk; omega
  refine ⟨?_, h16, ?_, ?_⟩
  · intro h
    exact h16 (h 16 104 ⟨4, by norm_num⟩ (by norm_num)).1
  · rw [c1, c2]; unfold rangeOk; omega
  · rw [c3, c4]; unfold rangeOk; omega

/-- C7, amended: for every power-of-two window size `N` (a `uint32_t`, so `N < 2 ^ 32`) and every
sample rate `fs` with `14 ≤ fs ≤ 2 * N` (Nyquist frequency at least 7 Hz, bin width at most
2 Hz) given to `signal_init`, the bin ranges that `process_window` derives in single precision
satisfy `0 ≤ lo ≤ hi ≤ N/2` for both bands. -/
theorem C7_ranges_ok (N k : Nat) (fs : ℚ) (hN : N = 2 ^ k) (h32 : N < 2 ^ 32)
    (h14 : 14 ≤ fs) (h2N : fs ≤ 2 * N) :
    rangeOk N (t_lo (signal_init N fs)) (t_hi (signal_init N fs)) ∧
    rangeOk N (d_lo (signal_init N fs)) (d_hi (signal_init N fs)) := by
  have hk : k < 32 := by
    rw [hN] at h32
    exact (Nat.pow_lt_pow_iff_right (by norm_num)).mp h32
  have hk1 : 1 ≤ k := by
    rcases Nat.eq_zero_or_pos k with h0 | hpos
    · subst h0
      have : (N : ℚ) = 1 := by rw [hN]; norm_num
      rw [this] at h2N; linarith
    · exact hpos
  obtain ⟨hlo, hhi⟩ := bin_width_bounds N k fs hN hk h14 h2N
  unfold t_lo t_hi d_lo d_hi
  exact ⟨band_range_ok N k _ 3 5 hN hk hk1 (by norm_num) (by norm_num) (by norm_num) hlo hhi,
    band_range_ok N k _ 5 7 hN hk hk1 (by norm_num) (by norm_num) (by norm_num) hlo hhi⟩

/-- C7, amended, at the operating point `N = 256 = 2 ^ 8`, `fs = 104`. -/
theorem C7_ranges_ok_witness :
    256 = 2 ^ 8 ∧ 256 < 2 ^ 32 ∧ (14 : ℚ) ≤ 104 ∧ (104 : ℚ) ≤ 2 * (256 : ℕ) ∧
    rangeOk 256 (t_lo (signal_init 256 104)) (t_hi (signal_init 256 104)) ∧
    rangeOk 256 (d_lo (signal_init 256 104)) (d_hi (signal_init 256 104)) :=
  ⟨by norm_num, by norm_num, by norm_num, by norm_num,
    C7_ranges_ok 256 8 104 (by norm_num) (by norm_num) (by norm_num) (by norm_num)⟩

/-! ## Acquisition -/

/-- Overwriting position `n` does not change the first `n` entries. -/
theorem take_set_self {β : Type} (l : List β) (n : Nat) (a : β) :
    (l.set n a).take n = l.take n := by
  apply List.ext_getElem?
  intro i
  rw [List.getElem?_take, List.getElem?_take]
  split
  · rw [List.getElem?_set_ne (by omega)]
  · rfl

/-- A poll that finds the flag set inside the loop: the flag is cleared, the sample is stored at
`idx`, and `idx` grows by one. -/
theorem poll_taken (raw : Int) (s : Acq) (hin : s.inLoop = true) (hidx : s.idx < FFT_SIZE)
    (hflag : s.sampleNow = true) :
    poll raw s =
      { s with
        sampleNow := false
        inputBuf := s.inputBuf.set s.idx (raw : ℚ)
        idx := s.idx + 1
        stores := s.stores ++ [(s.idx, raw)] } := by
  have hmod : (s.idx + 1) % 2 ^ 32 = s.idx + 1 := by
    apply Nat.mod_eq_of_lt
    unfold FFT_SIZE at hidx
    omega
  unfold poll loopBody
  rw [if_pos hin, if_pos hidx, if_pos hflag, hmod]

/-- A poll that finds the flag clear changes nothing. -/
theorem poll_idle (raw : Int) (s : Acq) (hin : s.inLoop = true) (hidx : s.idx < FFT_SIZE)
    (hflag : s.sampleNow = false) : poll raw s = s := by
  simp [poll, loopBody, hin, hidx, hflag]

/-- A poll with `idx` at `FFT_SIZE` or above leaves the loop. -/
theorem poll_exit (raw : Int) (s : Acq) (hin : s.inLoop = true) (hidx : ¬ s.idx < FFT_SIZE) :
    poll raw s = { s with inLoop := false } := by
  simp [poll, hin, hidx]

/-- After the loop a poll changes nothing. -/
theorem poll_done (raw : Int) (s : Acq) (hin : s.inLoop = false) : poll raw s = s := by
  simp [poll, hin]

/-- No event decreases `idx`. -/
theorem step_idx_mono (s : Acq) (e : Event) : s.idx ≤ (step s e).idx := by
  cases e with
  | fire => simp [step, sampleHandler]
  | poll raw =>
    simp only [step]
    cases hin : s.inLoop with
    | false => rw [poll_done raw s hin]
    | true =>
      by_cases hidx : s.idx < FFT_SIZE
      · cases hflag : s.sampleNow with
        | false => rw [poll_idle raw s hin hidx hflag]
        | true => rw [poll_taken raw s hin hidx hflag]; simp
      · rw [poll_exit raw s hin hidx]

/-- No sequence of events decreases `idx`. -/
theorem run_idx_mono (tr : List Event) : ∀ s : Acq, s.idx ≤ (run s tr).idx := by
  induction tr with
  | nil => intro s; simp [run]
  | cons e tr ih =>
    intro s
    have h1 := step_idx_mono s e
    have h2 := ih (step s e)
    simp only [run, List.foldl_cons] at h2 ⊢
    exact le_trans h1 h2

/-- Running a concatenation of traces. -/
theorem run_append (s : Acq) (tr tr2 : List Event) : run s (tr ++ tr2) = run (run s tr) tr2 := by
  simp [run, List.foldl_append]

/-- Running a single poll. -/
theorem run_poll (s : Acq) (raw : Int) : run s [Event.poll raw] = poll raw s := rfl

/-- Every event preserves the invariant. -/
theorem step_inv (s : Acq) (e : Event) (h : AcqInv s) : AcqInv (step s e) := by
  obtain ⟨h1, h2, h3, h4, h5⟩ := h
  cases e with
  | fire => exact ⟨h1, h2, h3, h4, h5⟩
  | poll raw =>
    simp only [step]
    cases hin : s.inLoop with
    | false => rw [poll_done raw s hin]; exact ⟨h1, h2, h3, h4, h5⟩
    | true =>
      by_cases hidx : s.idx < FFT_SIZE
      · cases hflag : s.sampleNow with
        | false => rw [poll_idle raw s hin hidx hflag]; exact ⟨h1, h2, h3, h4, h5⟩
        | true =>
          rw [poll_taken raw s hin hidx hflag]
          refine ⟨?_, ?_, ?_, ?_, ?_⟩
          · show s.idx + 1 ≤ FFT_SIZE
            omega
          · show (s.inputBuf.set s.idx (raw : ℚ)).length = FFT_SIZE
            rw [List.length_set]; exact h2
          · show (s.stores ++ [(s.idx, raw)]).map Prod.fst = List.range (s.idx + 1)
            rw [List.map_append, h3, List.range_succ]; rfl
          · show (s.inputBuf.set s.idx (raw : ℚ)).take (s.idx + 1)
                = (s.stores ++ [(s.idx, raw)]).map (fun p => (p.2 : ℚ))
            have hlen : s.idx < (s.inputBuf.set s.idx (raw : ℚ)).length := by
              rw [List.length_set, h2]; exact hidx
            rw [List.take_succ, take_set_self, h4, List.map_append,
              List.getElem?_eq_getElem hlen]
            simp
          · intro hf
            exact absurd hf (by simp [hin])
      · rw [poll_exit raw s hin hidx]
        refine ⟨h1, h2, h3, h4, ?_⟩
        intro _
        show s.idx = FFT_SIZE
        omega

/-- Every sequence of events preserves the invariant. -/
theorem run_inv (tr : List Event) : ∀ s : Acq, AcqInv s → AcqInv (run s tr) := by
  induction tr with
  | nil => intro s h; exact h
  | cons e tr ih =>
    intro s h
    have := ih (step s e) (step_inv s e h)
    simpa [run] using this

/-- The state in which the loop is entered satisfies the invariant. -/
theorem startCycle_inv (flag : Bool) (buf : List ℚ) (hbuf : buf.length = FFT_SIZE) :
    AcqInv (startCycle flag buf) := by
  refine ⟨Nat.zero_le _, hbuf, ?_, ?_, ?_⟩
  · simp [startCycle]
  · simp [startCycle]
  · intro h; simp [startCycle] at h


/-- After `n ≤ FFT_SIZE` rounds of "fire, then poll", `n` samples have been taken and the loop is
still running. -/
theorem run_regularTrace (flag : Bool) (buf : List ℚ) (raw : Nat → Int) :
    ∀ n, n ≤ FFT_SIZE →
      (run (startCycle flag buf) (regularTrace raw n)).idx = n ∧
      (run (startCycle flag buf) (regularTrace raw n)).inLoop = true := by
  intro n
  induction n with
  | zero => intro _; exact ⟨rfl, rfl⟩
  | succ n ih =>
    intro hn
    obtain ⟨hi, hl⟩ := ih (by omega)
    have hlt : (sampleHandler (run (startCycle flag buf) (regularTrace raw n))).idx < FFT_SIZE := by
      show (run (startCycle flag buf) (regularTrace raw n)).idx < FFT_SIZE
      omega
    have hstep : run (startCycle flag buf) (regularTrace raw (n + 1)) =
        poll (raw n) (sampleHandler (run (startCycle flag buf) (regularTrace raw n))) := by
      show run (startCycle flag buf) (regularTrace raw n ++ [Event.fire, Event.poll (raw n)]) = _
      rw [run_append]; rfl
    rw [hstep, poll_taken (raw n)
      (sampleHandler (run (startCycle flag buf) (regularTrace raw n))) hl hlt rfl]
    exact ⟨by show (run (startCycle flag buf) (regularTrace raw n)).idx + 1 = n + 1; omega, hl⟩

/-- C6: for every state with `idx < N`, two firings of `sampleHandler` followed by one poll leave
the same state as one firing followed by one poll; `idx` has advanced by exactly 1, one store
has been made, and a second poll with no further firing leaves `idx` unchanged. Stated for the
loop body alone and, for a state inside the loop, for the events of the cycle. -/
theorem C6_second_firing_lost (s : Acq) (raw raw2 : Int) (h : s.idx < FFT_SIZE) :
    loopBody raw (sampleHandler (sampleHandler s)) = loopBody raw (sampleHandler s) ∧
    (loopBody raw (sampleHandler (sampleHandler s))).idx = s.idx + 1 ∧
    (loopBody raw (sampleHandler (sampleHandler s))).stores = s.stores ++ [(s.idx, raw)] ∧
    (loopBody raw2 (loopBody raw (sampleHandler (sampleHandler s)))).idx = s.idx + 1 ∧
    (s.inLoop = true →
      run s [Event.fire, Event.fire, Event.poll raw] = run s [Event.fire, Event.poll raw] ∧
      (run s [Event.fire, Event.fire, Event.poll raw]).idx = s.idx + 1 ∧
      (run s [Event.fire, Event.fire, Event.poll raw, Event.poll raw2]).idx = s.idx + 1) := by
  have hmod : (s.idx + 1) % 2 ^ 32 = s.idx + 1 := by
    apply Nat.mod_eq_of_lt
    unfold FFT_SIZE at h
    omega
  refine ⟨rfl, hmod, rfl, hmod, ?_⟩
  · intro hin
    have h1 : run s [Event.fire, Event.fire, Event.poll raw] =
        poll raw (sampleHandler (sampleHandler s)) := rfl
    have h2 : run s [Event.fire, Event.poll raw] = poll raw (sampleHandler s) := rfl
    have h3 : run s [Event.fire, Event.fire, Event.poll raw, Event.poll raw2] =
        poll raw2 (poll raw (sampleHandler (sampleHandler s))) := rfl
    have hp : poll raw (sampleHandler s) =
        { s with
          sampleNow := false
          inputBuf := s.inputBuf.set s.idx (raw : ℚ)
          idx := s.idx + 1
          stores := s.stores ++ [(s.idx, raw)] } :=
      poll_taken raw (sampleHandler s) hin h rfl
    have hss : sampleHandler (sampleHandler s) = sampleHandler s := rfl
    rw [h1, h2, h3, hss, hp]
    refine ⟨rfl, rfl, ?_⟩
    by_cases hnext : s.idx + 1 < FFT_SIZE
    · rw [poll_idle raw2 { s with
          sampleNow := false
          inputBuf := s.inputBuf.set s.idx (raw : ℚ)
          idx := s.idx + 1
          stores := s.stores ++ [(s.idx, raw)] } hin hnext rfl]
    · rw [poll_exit raw2 { s with
          sampleNow := false
          inputBuf := s.inputBuf.set s.idx (raw : ℚ)
          idx := s.idx + 1
          stores := s.stores ++ [(s.idx, raw)] } hin hnext]

/-- C6, at the start of a cycle with an all-zero buffer. -/
theorem C6_second_firing_lost_witness :
    (startCycle false (List.replicate 256 0)).idx < FFT_SIZE ∧
    (startCycle false (List.replicate 256 0)).inLoop = true ∧
    (run (startCycle false (List.replicate 256 0))
      [Event.fire, Event.fire, Event.poll 5, Event.poll 6]).idx = 0 + 1 :=
  have h : (startCycle false (List.replicate 256 0)).idx < FFT_SIZE := by
    show 0 < 256
    decide
  ⟨h, rfl, ((C6_second_firing_lost (startCycle false (List.replicate 256 0)) 5 6 h).2.2.2.2
    rfl).2.2⟩

/-- C8: in one acquisition cycle, started with `idx = 0`, any flag value and a buffer of `N`
entries, after every sequence of firings and polls: `0 ≤ idx ≤ N`; every store into `inputBuf`
so far was at an index below `N`; `idx` does not decrease under any continuation; the stores went
to positions `0 .. idx-1` in this order; and if the loop has been left then `idx = N`, exactly
`N` stores were made, at positions `0 .. N-1` in order, and the buffer holds exactly the stored
values. The loop can be left: `N` rounds of "fire, poll" and one more poll leave it. -/
theorem C8_acquisition_cycle (flag : Bool) (buf : List ℚ) (hbuf : buf.length = FFT_SIZE)
    (tr tr2 : List Event) (raw : Nat → Int) :
    (run (startCycle flag buf) tr).idx ≤ FFT_SIZE ∧
    (∀ p ∈ (run (startCycle flag buf) tr).stores, p.1 < FFT_SIZE) ∧
    (run (startCycle flag buf) tr).idx ≤ (run (startCycle flag buf) (tr ++ tr2)).idx ∧
    (run (startCycle flag buf) tr).stores.map Prod.fst
      = List.range (run (startCycle flag buf) tr).idx ∧
    ((run (startCycle flag buf) tr).inLoop = false →
      (run (startCycle flag buf) tr).idx = FFT_SIZE ∧
      (run (startCycle flag buf) tr).stores.length = FFT_SIZE ∧
      (run (startCycle flag buf) tr).stores.map Prod.fst = List.range FFT_SIZE ∧
      (run (startCycle flag buf) tr).inputBuf
        = (run (startCycle flag buf) tr).stores.map (fun p => (p.2 : ℚ))) ∧
    (run (startCycle flag buf) (regularTrace raw FFT_SIZE ++ [Event.poll 0])).inLoop = false := by
  obtain ⟨h1, h2, h3, h4, h5⟩ := run_inv tr _ (startCycle_inv flag buf hbuf)
  refine ⟨h1, ?_, ?_, h3, ?_, ?_⟩
  · intro p hp
    have hmem : p.1 ∈ List.range (run (startCycle flag buf) tr).idx := by
      rw [← h3]; exact List.mem_map_of_mem Prod.fst hp
    have := List.mem_range.mp hmem
    omega
  · rw [run_append]; exact run_idx_mono tr2 _
  · intro hout
    have hidx := h5 hout
    refine ⟨hidx, ?_, ?_, ?_⟩
    · have hl := congrArg List.length h3
      rw [List.length_map, List.length_range] at hl
      rw [hl, hidx]
    · rw [h3, hidx]
    · rw [← h4, hidx, ← h2, List.take_length]
  · obtain ⟨hi, hl⟩ := run_regularTrace flag buf raw FFT_SIZE (le_refl _)
    rw [run_append, run_poll, poll_exit 0 _ hl (by omega)]

/-- C8, at a cycle entered with the flag already set and an all-zero buffer, after two firings,
two polls, and a continuation of one firing and one poll. -/
theorem C8_acquisition_cycle_witness :
    (List.replicate 256 (0 : ℚ)).length = FFT_SIZE ∧
    (run (startCycle true (List.replicate 256 0))
      [Event.fire, Event.fire, Event.poll 5, Event.poll 6]).idx ≤ FFT_SIZE ∧
    (run (startCycle true (List.replicate 256 0))
      (regularTrace (fun i => (i : Int)) FFT_SIZE ++ [Event.poll 0])).inLoop = false ∧
    (run (startCycle true (List.replicate 256 0))
      (regularTrace (fun i => (i : Int)) FFT_SIZE ++ [Event.poll 0])).idx = FFT_SIZE ∧
    (run (startCycle true (List.replicate 256 0))
      (regularTrace (fun i => (i : Int)) FFT_SIZE ++ [Event.poll 0])).stores.length = FFT_SIZE :=
  have h : (List.replicate 256 (0 : ℚ)).length = FFT_SIZE :=
    List.length_replicate 256 0
  have hfull := C8_acquisition_cycle true (List.replicate 256 0) h
    (regularTrace (fun i => (i : Int)) FFT_SIZE ++ [Event.poll 0]) [] (fun i => (i : Int))
  ⟨h, (C8_acquisition_cycle true (List.replicate 256 0) h
      [Event.fire, Event.fire, Event.poll 5, Event.poll 6] [Event.fire, Event.poll 7]
      (fun i => (i : Int))).1,
    hfull.2.2.2.2.2, (hfull.2.2.2.2.1 hfull.2.2.2.2.2).1, (hfull.2.2.2.2.1 hfull.2.2.2.2.2).2.1⟩


/-! ## The spectrum of a windowed constant -/

/-- The sum is a geometric sum. -/
theorem unitSum_eq_geom (ψ : ℝ) :
    unitSum ψ = ∑ n in Finset.range 256, Complex.exp ((ψ : ℂ) * Complex.I) ^ n := by
  unfold unitSum
  apply Finset.sum_congr rfl
  intro n _
  rw [← Complex.exp_nat_mul]
  congr 1
  push_cast; ring

/-- The geometric sum times `|sin ψ|` is at most 2. -/
theorem unitSum_mul_sin_le (ψ : ℝ) : Complex.abs (unitSum ψ) * |Real.sin ψ| ≤ 2 := by
  rw [unitSum_eq_geom]
  have hgeom := geom_sum_mul (Complex.exp ((ψ : ℂ) * Complex.I)) 256
  have hnorm : Complex.abs (∑ n in Finset.range 256, Complex.exp ((ψ : ℂ) * Complex.I) ^ n) *
      Complex.abs (Complex.exp ((ψ : ℂ) * Complex.I) - 1) ≤ 2 := by
    rw [← map_mul, hgeom]
    calc Complex.abs (Complex.exp ((ψ : ℂ) * Complex.I) ^ 256 - 1)
        ≤ Complex.abs (Complex.exp ((ψ : ℂ) * Complex.I) ^ 256) + Complex.abs 1 := by
          have h := norm_sub_le (Complex.exp ((ψ : ℂ) * Complex.I) ^ 256) (1 : ℂ)
          rw [Complex.norm_eq_abs, Complex.norm_eq_abs, Complex.norm_eq_abs] at h
          exact h
      _ = 2 := by
          rw [map_pow, Complex.abs_exp_ofReal_mul_I]; norm_num
  have him : |Real.sin ψ| ≤ Complex.abs (Complex.exp ((ψ : ℂ) * Complex.I) - 1) := by
    have h := Complex.abs_im_le_abs (Complex.exp ((ψ : ℂ) * Complex.I) - 1)
    rw [Complex.sub_im, Complex.exp_ofReal_mul_I_im, Complex.one_im, sub_zero] at h
    exact h
  calc Complex.abs (∑ n in Finset.range 256, Complex.exp ((ψ : ℂ) * Complex.I) ^ n) * |Real.sin ψ|
      ≤ Complex.abs (∑ n in Finset.range 256, Complex.exp ((ψ : ℂ) * Complex.I) ^ n) *
          Complex.abs (Complex.exp ((ψ : ℂ) * Complex.I) - 1) :=
        mul_le_mul_of_nonneg_left him (Complex.abs.nonneg _)
    _ ≤ 2 := hnorm

/-- A lower bound on `|sin ψ|` bounds the geometric sum. -/
theorem unitSum_le_of_sin (ψ s : ℝ) (hs : 0 < s) (h : s ≤ |Real.sin ψ|) :
    Complex.abs (unitSum ψ) ≤ 2 / s := by
  rw [le_div_iff₀ hs]
  calc Complex.abs (unitSum ψ) * s ≤ Complex.abs (unitSum ψ) * |Real.sin ψ| :=
        mul_le_mul_of_nonneg_left h (Complex.abs.nonneg _)
    _ ≤ 2 := unitSum_mul_sin_le ψ

/-- The geometric sum over a full set of roots of unity vanishes. -/
theorem unitSum_eq_zero (ψ : ℝ) (hone : Complex.exp ((ψ : ℂ) * Complex.I) ^ 256 = 1)
    (hsin : Real.sin ψ ≠ 0) : unitSum ψ = 0 := by
  rw [unitSum_eq_geom]
  have hgeom := geom_sum_mul (Complex.exp ((ψ : ℂ) * Complex.I)) 256
  rw [hone, sub_self] at hgeom
  have hne : Complex.exp ((ψ : ℂ) * Complex.I) - 1 ≠ 0 := by
    intro h0
    have := congrArg Complex.im h0
    rw [Complex.sub_im, Complex.exp_ofReal_mul_I_im, Complex.one_im, sub_zero, Complex.zero_im]
      at this
    exact hsin this
  exact (mul_eq_zero.mp hgeom).resolve_right hne

/-- For small angles the geometric sum is close to 256. -/
theorem unitSum_re_ge (ψ b : ℝ) (hb : ∀ n : ℕ, n < 256 → ((n : ℝ) * ψ) ^ 2 / 2 ≤ b) :
    256 * (1 - b) ≤ Complex.abs (unitSum ψ) := by
  have hre : (unitSum ψ).re = ∑ n in Finset.range 256, Real.cos ((n : ℝ) * ψ) := by
    unfold unitSum
    rw [Complex.re_sum]
    apply Finset.sum_congr rfl
    intro n _
    exact Complex.exp_ofReal_mul_I_re _
  have hsum : ∑ _n in Finset.range 256, (1 - b) ≤ ∑ n in Finset.range 256, Real.cos ((n : ℝ) * ψ) := by
    apply Finset.sum_le_sum
    intro n hn
    have h1 := hb n (Finset.mem_range.mp hn)
    have h2 := Real.one_sub_sq_div_two_le_cos (x := (n : ℝ) * ψ)
    linarith
  rw [Finset.sum_const, Finset.card_range, nsmul_eq_mul] at hsum
  calc 256 * (1 - b) = ((256 : ℕ) : ℝ) * (1 - b) := by norm_num
    _ ≤ (unitSum ψ).re := by rw [hre]; exact hsum
    _ ≤ Complex.abs (unitSum ψ) := Complex.re_le_abs _

/-- One term of the transform of a windowed constant, split into three unit-circle points. -/
theorem windowed_term (c : ℝ) (k n : ℕ) :
    ((applyWindow (fun _ => c) n : ℝ) : ℂ) *
      Complex.exp (((-(2 * Real.pi * (k : ℝ) * (n : ℝ) / (FFT_SIZE : ℝ)) : ℝ) : ℂ) * Complex.I) =
    (c : ℂ) * ((1 / 2) * Complex.exp ((((n : ℝ) * (-binStep k) : ℝ) : ℂ) * Complex.I)
      - (1 / 4) * Complex.exp ((((n : ℝ) * (windowStep - binStep k) : ℝ) : ℂ) * Complex.I)
      - (1 / 4) * Complex.exp ((((n : ℝ) * (-windowStep - binStep k) : ℝ) : ℂ) * Complex.I)) := by
  have hA : Complex.exp ((((n : ℝ) * (windowStep - binStep k) : ℝ) : ℂ) * Complex.I) =
      Complex.exp ((((n : ℝ) * windowStep : ℝ) : ℂ) * Complex.I) *
        Complex.exp ((((n : ℝ) * (-binStep k) : ℝ) : ℂ) * Complex.I) := by
    rw [← Complex.exp_add]; congr 1; push_cast; ring
  have hB : Complex.exp ((((n : ℝ) * (-windowStep - binStep k) : ℝ) : ℂ) * Complex.I) =
      Complex.exp (-(((n : ℝ) * windowStep : ℝ) : ℂ) * Complex.I) *
        Complex.exp ((((n : ℝ) * (-binStep k) : ℝ) : ℂ) * Complex.I) := by
    rw [← Complex.exp_add]; congr 1; push_cast; ring
  have hZ : Complex.exp (((-(2 * Real.pi * (k : ℝ) * (n : ℝ) / (FFT_SIZE : ℝ)) : ℝ) : ℂ) * Complex.I)
      = Complex.exp ((((n : ℝ) * (-binStep k) : ℝ) : ℂ) * Complex.I) := by
    congr 2
    unfold binStep FFT_SIZE
    push_cast; ring
  have hw : ((applyWindow (fun _ => c) n : ℝ) : ℂ) =
      (c : ℂ) * ((1 / 2) - (1 / 4) * Complex.exp ((((n : ℝ) * windowStep : ℝ) : ℂ) * Complex.I)
        - (1 / 4) * Complex.exp (-(((n : ℝ) * windowStep : ℝ) : ℂ) * Complex.I)) := by
    have harg : 2 * Real.pi * (n : ℝ) / ((FFT_SIZE - 1 : ℕ) : ℝ) = (n : ℝ) * windowStep := by
      unfold windowStep FFT_SIZE
      norm_num
      ring
    have h05 : ((0.5 : ℝ) : ℂ) = 1 / 2 := by norm_num
    unfold applyWindow windowCoef
    rw [harg, Complex.ofReal_mul, Complex.ofReal_mul, Complex.ofReal_sub, Complex.ofReal_cos,
      Complex.cos, Complex.ofReal_one, h05]
    ring
  rw [hA, hB, hZ, hw]
  ring

/-- The transform of a windowed constant is `c` times three geometric sums. -/
theorem dft_const (c : ℝ) (k : ℕ) :
    dft (applyWindow (fun _ => c)) k =
      (c : ℂ) * ((1 / 2) * unitSum (-binStep k) - (1 / 4) * unitSum (windowStep - binStep k)
        - (1 / 4) * unitSum (-windowStep - binStep k)) := by
  unfold dft unitSum
  rw [Finset.sum_congr rfl (fun n _ => windowed_term c k n)]
  unfold FFT_SIZE
  rw [← Finset.mul_sum, Finset.sum_sub_distrib, Finset.sum_sub_distrib, ← Finset.mul_sum,
    ← Finset.mul_sum, ← Finset.mul_sum]

/-- On a quarter turn the sine is above its chord. -/
theorem sin_two_pi_mul_ge (r : ℝ) (h0 : 0 ≤ r) (h1 : r ≤ 1 / 4) :
    4 * r ≤ Real.sin (2 * Real.pi * r) := by
  have hpi : 0 < Real.pi := Real.pi_pos
  have h := Real.mul_le_sin (x := 2 * Real.pi * r) (by positivity) (by nlinarith)
  have e : 2 / Real.pi * (2 * Real.pi * r) = 4 * r := by
    field_simp; ring
  rw [e] at h; exact h

/-- The geometric sum at a bin frequency vanishes. -/
theorem unitSum_bin_zero (k : ℕ) (hk1 : 1 ≤ k) (hk : k ≤ 127) : unitSum (-binStep k) = 0 := by
  have hpi : 0 < Real.pi := Real.pi_pos
  apply unitSum_eq_zero
  · rw [← Complex.exp_nat_mul]
    have e : ((256 : ℕ) : ℂ) * (((-binStep k : ℝ) : ℂ) * Complex.I) =
        ((-(k : ℤ) : ℤ) : ℂ) * (2 * (Real.pi : ℂ) * Complex.I) := by
      unfold binStep; push_cast; ring
    rw [e]
    exact Complex.exp_int_mul_two_pi_mul_I _
  · rw [Real.sin_neg]
    apply neg_ne_zero.mpr
    apply ne_of_gt
    have hk1' : (1 : ℝ) ≤ (k : ℝ) := by exact_mod_cast hk1
    have hk' : (k : ℝ) ≤ 127 := by exact_mod_cast hk
    apply Real.sin_pos_of_pos_of_lt_pi
    · unfold binStep; positivity
    · unfold binStep
      rw [div_lt_iff₀ (by norm_num)]
      nlinarith

/-- The geometric sum at `r` turns, `r` at most a quarter. -/
theorem abs_unitSum_le (r s : ℝ) (hs : 0 < s) (hsr : s ≤ 4 * r) (h1 : r ≤ 1 / 4) :
    Complex.abs (unitSum (-(2 * Real.pi * r))) ≤ 2 / s := by
  apply unitSum_le_of_sin _ s hs
  have h0 : 0 ≤ r := by linarith
  have h := sin_two_pi_mul_ge r h0 h1
  rw [Real.sin_neg, abs_neg]
  exact le_trans (le_trans hsr h) (le_abs_self _)

/-- Bins 11..17 of the spectrum of the window itself are at most 7. -/
theorem window_bin_le (k : ℕ) (h11 : 11 ≤ k) (h17 : k ≤ 17) :
    Complex.abs ((1 / 2) * unitSum (-binStep k) - (1 / 4) * unitSum (windowStep - binStep k)
        - (1 / 4) * unitSum (-windowStep - binStep k)) ≤ 7 := by
  have hk11 : (11 : ℝ) ≤ (k : ℝ) := by exact_mod_cast h11
  have hk17 : (k : ℝ) ≤ 17 := by exact_mod_cast h17
  have hz := unitSum_bin_zero k (by omega) (by omega)
  have e1 : windowStep - binStep k = -(2 * Real.pi * ((k : ℝ) / 256 - 1 / 255)) := by
    unfold windowStep binStep; ring
  have e2 : -windowStep - binStep k = -(2 * Real.pi * ((k : ℝ) / 256 + 1 / 255)) := by
    unfold windowStep binStep; ring
  have b1 : Complex.abs (unitSum (windowStep - binStep k)) ≤ 2 / (3 / 20) := by
    rw [e1]
    apply abs_unitSum_le _ _ (by norm_num) <;> linarith
  have b2 : Complex.abs (unitSum (-windowStep - binStep k)) ≤ 2 / (3 / 20) := by
    rw [e2]
    apply abs_unitSum_le _ _ (by norm_num) <;> linarith
  rw [hz, mul_zero, zero_sub]
  calc Complex.abs (-((1 / 4) * unitSum (windowStep - binStep k)) - (1 / 4) * unitSum (-windowStep - binStep k))
      ≤ Complex.abs (-((1 / 4) * unitSum (windowStep - binStep k)))
          + Complex.abs ((1 / 4) * unitSum (-windowStep - binStep k)) := by
        have h := norm_sub_le (-((1 / 4 : ℂ) * unitSum (windowStep - binStep k)))
          ((1 / 4 : ℂ) * unitSum (-windowStep - binStep k))
        rw [Complex.norm_eq_abs, Complex.norm_eq_abs, Complex.norm_eq_abs] at h
        exact h
    _ = (1 / 4) * Complex.abs (unitSum (windowStep - binStep k))
          + (1 / 4) * Complex.abs (unitSum (-windowStep - binStep k)) := by
        rw [map_neg_eq_map, map_mul, map_mul]
        norm_num
    _ ≤ 7 := by
        norm_num at b1 b2
        linarith

/-- Bin 1 of the spectrum of the window itself is at least 7. -/
theorem window_bin_one_ge :
    7 ≤ Complex.abs ((1 / 2) * unitSum (-binStep 1) - (1 / 4) * unitSum (windowStep - binStep 1)
        - (1 / 4) * unitSum (-windowStep - binStep 1)) := by
  have hpi0 : 0 < Real.pi := Real.pi_pos
  have hpi4 : Real.pi ≤ 4 := Real.pi_le_four
  have hz := unitSum_bin_zero 1 (by omega) (by omega)
  have e2 : -windowStep - binStep 1 = -(2 * Real.pi * ((1 : ℝ) / 256 + 1 / 255)) := by
    unfold windowStep binStep; push_cast; ring
  have b2 : Complex.abs (unitSum (-windowStep - binStep 1)) ≤ 2 / (3 / 100) := by
    rw [e2]
    apply abs_unitSum_le _ _ (by norm_num) <;> norm_num
  have b1 : 256 * (1 - 1 / 2048) ≤ Complex.abs (unitSum (windowStep - binStep 1)) := by
    apply unitSum_re_ge
    intro n hn
    have hn' : (n : ℝ) ≤ 255 := by
      have : n ≤ 255 := by omega
      exact_mod_cast this
    have hn0 : (0 : ℝ) ≤ (n : ℝ) := Nat.cast_nonneg n
    have hψ : windowStep - binStep 1 = 2 * Real.pi / 65280 := by
      unfold windowStep binStep; push_cast; ring
    rw [hψ]
    have hx0 : 0 ≤ (n : ℝ) * (2 * Real.pi / 65280) := by positivity
    have hx1 : (n : ℝ) * (2 * Real.pi / 65280) ≤ 1 / 32 := by
      have : (n : ℝ) * (2 * Real.pi / 65280) ≤ 255 * (2 * 4 / 65280) := by
        apply mul_le_mul hn' _ (by positivity) (by norm_num)
        apply div_le_div_of_nonneg_right _ (by norm_num)
        linarith
      norm_num at this
      linarith
    nlinarith
  rw [hz, mul_zero, zero_sub]
  have htri : Complex.abs ((1 / 4) * unitSum (windowStep - binStep 1)) ≤
      Complex.abs (-((1 / 4) * unitSum (windowStep - binStep 1)) - (1 / 4) * unitSum (-windowStep - binStep 1))
        + Complex.abs ((1 / 4) * unitSum (-windowStep - binStep 1)) := by
    have h := norm_add_le (-((1 / 4 : ℂ) * unitSum (windowStep - binStep 1)) - (1 / 4) * unitSum (-windowStep - binStep 1))
      ((1 / 4 : ℂ) * unitSum (-windowStep - binStep 1))
    rw [sub_add_cancel, norm_neg, Complex.norm_eq_abs, Complex.norm_eq_abs,
      Complex.norm_eq_abs] at h
    exact h
  rw [map_mul, map_mul] at htri
  norm_num at htri b1 b2
  linarith

/-- The magnitude spectrum of a windowed constant buffer is `|c|` times that of the window. -/
theorem magnitudeSpectrum_const (c : ℝ) (k : Nat) :
    magnitudeSpectrum (applyWindow (fun _ => c)) k =
      |c| * Complex.abs ((1 / 2) * unitSum (-binStep k) - (1 / 4) * unitSum (windowStep - binStep k)
        - (1 / 4) * unitSum (-windowStep - binStep k)) := by
  unfold magnitudeSpectrum
  rw [dft_const, map_mul, Complex.abs_ofReal]

/-- The transform reads the first `FFT_SIZE` entries of the buffer only. -/
theorem magnitudeSpectrum_congr (x y : Nat → ℝ) (h : ∀ i, i < FFT_SIZE → x i = y i) (k : Nat) :
    magnitudeSpectrum (applyWindow x) k = magnitudeSpectrum (applyWindow y) k := by
  unfold magnitudeSpectrum dft applyWindow
  congr 1
  apply Finset.sum_congr rfl
  intro n hn
  rw [h n (Finset.mem_range.mp hn)]

/-- If bins 1..10 are non-negative and no bin of 11..17 exceeds bin 1, neither band peak exceeds
the threshold. -/
theorem peaks_le_threshold {α : Type} [LinearOrderedField α] (m : Nat → α)
    (hm : ∀ k, 1 ≤ k → k ≤ 10 → 0 ≤ m k) (h1 : ∀ k, 11 ≤ k → k ≤ 17 → m k ≤ m 1) :
    (tremPeak m).1 ≤ baseline m * 10 ∧ (dyskPeak m).1 ≤ baseline m * 10 := by
  have hthr : m 1 ≤ baseline m * 10 := by
    rw [threshold_eq_sum]
    have p2 := hm 2 (by omega) (by omega)
    have p3 := hm 3 (by omega) (by omega)
    have p4 := hm 4 (by omega) (by omega)
    have p5 := hm 5 (by omega) (by omega)
    have p6 := hm 6 (by omega) (by omega)
    have p7 := hm 7 (by omega) (by omega)
    have p8 := hm 8 (by omega) (by omega)
    have p9 := hm 9 (by omega) (by omega)
    have p10 := hm 10 (by omega) (by omega)
    linarith
  constructor
  · obtain ⟨hi, hv, _, _⟩ := tremPeak_spec m
    rw [← hv]
    by_cases hlow : 7 + (tremPeak m).2 ≤ 10
    · exact low_bins_le_threshold m hm _ (by omega) hlow
    · exact le_trans (h1 _ (by omega) (by omega)) hthr
  · obtain ⟨hi, hv, _, _⟩ := dyskPeak_spec m
    rw [← hv]
    exact le_trans (h1 _ (by omega) (by omega)) hthr

/-- C5: for every constant `c`, when all 256 entries of the input buffer equal `c`, `runDetection`
(Hann window, FFT, magnitudes, DC attenuation, band peaks, decision, in exact arithmetic)
classifies None and asserts `ledNone`: neither the tremor-band peak nor the dyskinesia-band peak
exceeds the threshold `10 * mean(magnitude[1..10])`. -/
theorem C5_constant_input_none (leds : Leds) (c : ℝ) (inputBuf : Nat → ℝ)
    (hc : ∀ i, i < FFT_SIZE → inputBuf i = c) :
    (runDetectionOn leds inputBuf).2.classification = Classification.none ∧
    (runDetectionOn leds inputBuf).1 = { ledTremor := 0, ledDysk := 0, ledNone := 1 } ∧
    (tremPeak (dcAttenuate (magnitudeSpectrum (applyWindow inputBuf)))).1 ≤
      10 * baseline (dcAttenuate (magnitudeSpectrum (applyWindow inputBuf))) ∧
    (dyskPeak (dcAttenuate (magnitudeSpectrum (applyWindow inputBuf)))).1 ≤
      10 * baseline (dcAttenuate (magnitudeSpectrum (applyWindow inputBuf))) := by
  have hspec : ∀ k, magnitudeSpectrum (applyWindow inputBuf) k =
      |c| * Complex.abs ((1 / 2) * unitSum (-binStep k)
        - (1 / 4) * unitSum (windowStep - binStep k)
        - (1 / 4) * unitSum (-windowStep - binStep k)) := by
    intro k
    rw [magnitudeSpectrum_congr inputBuf (fun _ => c) hc k, magnitudeSpectrum_const]
  have hnn : ∀ k, 1 ≤ k → k ≤ 10 →
      0 ≤ dcAttenuate (magnitudeSpectrum (applyWindow inputBuf)) k := by
    intro k hk _
    rw [dcAttenuate_of_pos _ k hk]
    exact Complex.abs.nonneg _
  have hle : ∀ k, 11 ≤ k → k ≤ 17 →
      dcAttenuate (magnitudeSpectrum (applyWindow inputBuf)) k ≤
        dcAttenuate (magnitudeSpectrum (applyWindow inputBuf)) 1 := by
    intro k h11 h17
    rw [dcAttenuate_of_pos _ k (by omega), dcAttenuate_of_pos _ 1 (le_refl 1), hspec k, hspec 1]
    apply mul_le_mul_of_nonneg_left _ (abs_nonneg c)
    exact le_trans (window_bin_le k h11 h17) window_bin_one_ge
  obtain ⟨hT, hD⟩ :=
    peaks_le_threshold (dcAttenuate (magnitudeSpectrum (applyWindow inputBuf))) hnn hle
  have hnT : ¬ ((tremPeak (dcAttenuate (magnitudeSpectrum (applyWindow inputBuf)))).1 >
        (dyskPeak (dcAttenuate (magnitudeSpectrum (applyWindow inputBuf)))).1 ∧
      (tremPeak (dcAttenuate (magnitudeSpectrum (applyWindow inputBuf)))).1 >
        baseline (dcAttenuate (magnitudeSpectrum (applyWindow inputBuf))) * 10) :=
    fun h => absurd h.2 (not_lt.mpr hT)
  have hnD : ¬ ((dyskPeak (dcAttenuate (magnitudeSpectrum (applyWindow inputBuf)))).1 >
        (tremPeak (dcAttenuate (magnitudeSpectrum (applyWindow inputBuf)))).1 ∧
      (dyskPeak (dcAttenuate (magnitudeSpectrum (applyWindow inputBuf)))).1 >
        baseline (dcAttenuate (magnitudeSpectrum (applyWindow inputBuf))) * 10) :=
    fun h => absurd h.2 (not_lt.mpr hD)
  refine ⟨?_, ?_, ?_, ?_⟩
  · exact (decision_classification leds _ _ _ _ _).2.2.mpr ⟨hnT, hnD⟩
  · unfold runDetectionOn runDetection detect decision
    simp only [hnT, hnD, if_false]
  · rw [mul_comm]; exact hT
  · rw [mul_comm]; exact hD

/-- C5, at a buffer of 256 readings all equal to 16384 (one g at the 2 g range). -/
theorem C5_constant_input_none_witness :
    (∀ i, i < FFT_SIZE → (fun _ : Nat => (16384 : ℝ)) i = 16384) ∧
    (runDetectionOn ledsIdle (fun _ => 16384)).2.classification = Classification.none :=
  ⟨fun _ _ => rfl, (C5_constant_input_none ledsIdle 16384 (fun _ => 16384) (fun _ _ => rfl)).1⟩

end TremorDetector
